import Mathlib

/-!
Verification of the ticket dependency-graph engine
(`scripts/workstream_engine.py`).

The Python module manages a persisted snapshot of tickets with
dependency edges.  We embed its pure core shallowly:

* Python `dict`s become association lists (`List (String × α)`) with
  Python-`dict` update semantics (`setA`: update in place if the key is
  present, append otherwise), which preserves insertion order exactly as
  CPython dictionaries do.
* `detect_cycle` (a three-colour DFS with parent pointers) is embedded
  with an explicit fuel argument; the recursion is structural on the
  fuel so that the kernel can evaluate it.  We prove that the fuel
  chosen in `detect_cycle` is always sufficient, so the fuel-exhaustion
  branch is unreachable and the Lean function computes exactly what the
  Python function does.
* The CLI commands (`create`, `depends`, `update`, `next`) become pure
  functions from a `Snapshot` (the persisted document) to an exit code
  and the resulting persisted `Snapshot`; paths of the Python code that
  return before calling `save_status` leave the persisted snapshot
  unchanged.
-/

/-- Association-list lookup, mirroring Python `dict.__getitem__` /
`dict.get`. -/
def lookupA {α : Type} : List (String × α) → String → Option α
  | [], _ => none
  | (k', v') :: rest, k => if k' = k then some v' else lookupA rest k

/-- Association-list update with Python `dict` assignment semantics:
replace in place when the key exists (keeping its position), otherwise
append at the end (insertion order). -/
def setA {α : Type} : List (String × α) → String → α → List (String × α)
  | [], k, v => [(k, v)]
  | (k', v') :: rest, k, v =>
    if k' = k then (k, v) :: rest else (k', v') :: setA rest k v

/-- The keys of an association list, in insertion order
(Python `dict` iteration order). -/
def keysOf {α : Type} (l : List (String × α)) : List String := l.map Prod.fst

/-- Membership of a key, mirroring Python `k in d`. -/
def containsKey {α : Type} (l : List (String × α)) (k : String) : Bool :=
  (keysOf l).contains k

/-- A dependency graph: mapping from node to its list of dependency
targets (Python `dict[str, list[str]]`). -/
abbrev Graph := List (String × List String)

/-- `graph.get(node, [])` of the Python code. -/
def edgesOf (g : Graph) (n : String) : List String := (lookupA g n).getD []

section AssocLemmas

variable {α : Type}

theorem lookupA_setA_self (l : List (String × α)) (k : String) (v : α) :
    lookupA (setA l k v) k = some v := by
  induction l with
  | nil => simp [setA, lookupA]
  | cons h t ih =>
    obtain ⟨k', v'⟩ := h
    by_cases hk : k' = k
    · simp [setA, hk, lookupA]
    · simp [setA, hk, lookupA, ih]

theorem lookupA_setA_ne (l : List (String × α)) (k k' : String) (v : α)
    (h : k ≠ k') : lookupA (setA l k v) k' = lookupA l k' := by
  induction l with
  | nil => simp [setA, lookupA, h]
  | cons hd t ih =>
    obtain ⟨k₀, v₀⟩ := hd
    by_cases hk : k₀ = k
    · subst hk
      simp [setA, lookupA, h]
    · simp [setA, hk, lookupA, ih]

theorem keysOf_setA_of_mem (l : List (String × α)) (k : String) (v : α)
    (h : containsKey l k = true) : keysOf (setA l k v) = keysOf l := by
  induction l with
  | nil => simp [containsKey, keysOf] at h
  | cons hd t ih =>
    obtain ⟨k₀, v₀⟩ := hd
    by_cases hk : k₀ = k
    · simp [setA, hk, keysOf]
    · have h' : containsKey t k = true := by
        simp [containsKey, keysOf, List.elem_iff] at h ⊢
        rcases h with h | h
        · exact absurd h.symm hk
        · exact h
      simp [setA, hk, keysOf] at ih ⊢
      exact ih h'

theorem keysOf_setA_of_not_mem (l : List (String × α)) (k : String) (v : α)
    (h : containsKey l k = false) : keysOf (setA l k v) = keysOf l ++ [k] := by
  induction l with
  | nil => simp [setA, keysOf]
  | cons hd t ih =>
    obtain ⟨k₀, v₀⟩ := hd
    by_cases hk : k₀ = k
    · exfalso
      simp [containsKey, keysOf, List.elem_iff, hk] at h
    · have h' : containsKey t k = false := by
        simp [containsKey, keysOf, List.elem_iff] at h ⊢
        exact h.2
      simp [setA, hk, keysOf] at ih ⊢
      exact ih h'

theorem containsKey_iff_lookupA_isSome (l : List (String × α)) (k : String) :
    containsKey l k = true ↔ (lookupA l k).isSome := by
  induction l with
  | nil => simp [containsKey, keysOf, lookupA]
  | cons hd t ih =>
    obtain ⟨k₀, v₀⟩ := hd
    by_cases hk : k₀ = k
    · simp [containsKey, keysOf, List.elem_iff, hk, lookupA]
    · simp [containsKey, keysOf, List.elem_iff, hk, lookupA] at ih ⊢
      constructor
      · intro h
        rcases h with h | h
        · exact absurd h.symm hk
        · exact ih.mp h
      · intro h
        exact Or.inr (ih.mpr h)

theorem lookupA_eq_none_of_not_containsKey (l : List (String × α)) (k : String)
    (h : containsKey l k = false) : lookupA l k = none := by
  have := containsKey_iff_lookupA_isSome l k
  cases hl : lookupA l k with
  | none => rfl
  | some v =>
    rw [hl] at this
    simp at this
    rw [this] at h
    cases h

theorem lookupA_isSome_of_containsKey (l : List (String × α)) (k : String)
    (h : containsKey l k = true) : ∃ v, lookupA l k = some v := by
  have := (containsKey_iff_lookupA_isSome l k).mp h
  cases hl : lookupA l k with
  | none => rw [hl] at this; simp at this
  | some v => exact ⟨v, rfl⟩

theorem containsKey_of_lookupA (l : List (String × α)) (k : String) (v : α)
    (h : lookupA l k = some v) : containsKey l k = true := by
  rw [containsKey_iff_lookupA_isSome, h]
  rfl

end AssocLemmas

/-! ## Walks and cycles in a graph (specification side)

Only nodes present as keys of the mapping are graph members; an edge
runs from `a` to `b` when `b` occurs in `a`'s dependency list and both
are keys.  A cycle is a closed walk of length at least two (i.e. at
least one edge). -/

/-- Edge of the key-restricted graph. -/
def isEdgeK (g : Graph) (a b : String) : Bool :=
  containsKey g a && containsKey g b && (edgesOf g a).contains b

/-- All consecutive pairs of the list are edges of the key-restricted
graph. -/
def isChainK (g : Graph) : List String → Bool
  | a :: b :: rest => isEdgeK g a b && isChainK g (b :: rest)
  | _ => true

/-- `l` is a closed walk (cycle) of the key-restricted graph: at least
one edge, first element equals last element, consecutive pairs are
edges. -/
def IsCycleList (g : Graph) (l : List String) : Prop :=
  2 ≤ l.length ∧ l.head? = l.getLast? ∧ isChainK g l = true

instance (g : Graph) (l : List String) : Decidable (IsCycleList g l) := by
  unfold IsCycleList
  infer_instance

/-- The key-restricted graph has no cycle. -/
def Acyclic (g : Graph) : Prop := ¬ ∃ l, IsCycleList g l

/-! ## The three-colour DFS (`detect_cycle`)

Python colours: 0 = white (unvisited), 1 = gray (on the current path),
2 = black (finished). -/

abbrev ColorMap := List (String × Nat)
abbrev ParentMap := List (String × Option String)

/-- One DFS outcome: either a found cycle or nothing, together with the
updated colour and parent maps. -/
abbrev DfsSt := Option (List String) × ColorMap × ParentMap

/-- Cycle reconstruction: walk the parent chain from `cur` upward,
appending each parent, until `dep` is reached (mirrors the `while`
loop in `detect_cycle`).  The fuel bounds the walk; it is always
sufficient in reachable states. -/
def buildCycleAux (p : ParentMap) : Nat → String → String → List String → List String
  | 0, _, _, acc => acc
  | fuel + 1, dep, cur, acc =>
    if cur = dep then acc
    else
      match (lookupA p cur).getD none with
      | none => acc
      | some prev => buildCycleAux p fuel dep prev (acc ++ [prev])

/-- The reconstructed cycle `[dep, …, node, dep]` as returned by the
Python code (it builds `[dep, node, parents…]` and reverses). -/
def buildCycle (p : ParentMap) (node dep : String) : List String :=
  (buildCycleAux p (p.length + 1) dep node [dep, node]).reverse

/-- The inner `for dep in graph.get(node, [])` loop of `dfs`.  `visit`
is the recursive call at the next fuel level.  `none` signals fuel
exhaustion (provably unreachable with the fuel used by
`detect_cycle`). -/
def foldDeps (visit : String → ColorMap → ParentMap → Option DfsSt)
    (node : String) : List String → ColorMap → ParentMap → Option DfsSt
  | [], c, p => some (none, c, p)
  | dep :: rest, c, p =>
    match lookupA c dep with
    | none => foldDeps visit node rest c p
    | some 1 => some (some (buildCycle p node dep), c, p)
    | some 0 =>
      match visit dep c (setA p dep (some node)) with
      | none => none
      | some (some cyc, c', p') => some (some cyc, c', p')
      | some (none, c', p') => foldDeps visit node rest c' p'
    | some _ => foldDeps visit node rest c p

/-- The recursive `dfs(node)` of `detect_cycle`: colour the node gray,
process its dependency list, then colour it black. -/
def dfsVisit (g : Graph) : Nat → String → ColorMap → ParentMap → Option DfsSt
  | 0, _, _, _ => none
  | fuel + 1, node, c, p =>
    match foldDeps (dfsVisit g fuel) node (edgesOf g node) (setA c node 1) p with
    | none => none
    | some (some cyc, c', p') => some (some cyc, c', p')
    | some (none, c', p') => some (none, setA c' node 2, p')

/-- The outer `for node in graph` loop of `detect_cycle`. -/
def detectLoop (g : Graph) : List String → ColorMap → ParentMap → Option (List String)
  | [], _, _ => none
  | n :: rest, c, p =>
    if lookupA c n = some 0 then
      match dfsVisit g (g.length + 1) n c p with
      | none => none
      | some (some cyc, _, _) => some cyc
      | some (none, c', p') => detectLoop g rest c' p'
    else detectLoop g rest c p

/-- `detect_cycle(graph)`: return a cycle path if one exists, else
`none`.  Pure function of the mapping. -/
def detect_cycle (g : Graph) : Option (List String) :=
  detectLoop g (keysOf g) (g.map (fun x => (x.1, 0)))
    (g.map (fun x => (x.1, (none : Option String))))


/-! ## Code-point lexicographic string order

Python compares strings lexicographically by code point; we define that
order directly on the character data so that it evaluates inside the
kernel. -/

/-- Strict lexicographic order on character lists by code point. -/
def charListLt : List Char → List Char → Bool
  | [], [] => false
  | [], _ :: _ => true
  | _ :: _, [] => false
  | a :: as, b :: bs =>
    if a.toNat < b.toNat then true
    else if b.toNat < a.toNat then false
    else charListLt as bs

/-- Python `a < b` on strings. -/
def strLt (a b : String) : Bool := charListLt a.data b.data

/-- Python `a <= b` on strings. -/
def strLe (a b : String) : Bool := !(strLt b a)

theorem charListLt_irrefl (l : List Char) : charListLt l l = false := by
  induction l with
  | nil => rfl
  | cons a as ih => simp [charListLt, ih]

theorem charListLt_asymm (l₁ l₂ : List Char) (h : charListLt l₁ l₂ = true) :
    charListLt l₂ l₁ = false := by
  induction l₁ generalizing l₂ with
  | nil =>
    cases l₂ with
    | nil => simp [charListLt] at h
    | cons b bs => simp [charListLt]
  | cons a as ih =>
    cases l₂ with
    | nil => simp [charListLt] at h
    | cons b bs =>
      simp only [charListLt] at h ⊢
      by_cases hab : a.toNat < b.toNat
      · have hba : ¬ b.toNat < a.toNat := by omega
        simp [hab, hba]
      · by_cases hba : b.toNat < a.toNat
        · simp [hab, hba] at h
        · simp [hab, hba] at h ⊢
          exact ih bs h

theorem charListLt_trans (l₁ l₂ l₃ : List Char) (h₁ : charListLt l₁ l₂ = true)
    (h₂ : charListLt l₂ l₃ = true) : charListLt l₁ l₃ = true := by
  induction l₁ generalizing l₂ l₃ with
  | nil =>
    cases l₃ with
    | nil =>
      cases l₂ with
      | nil => simp [charListLt] at h₁
      | cons b bs => simp [charListLt] at h₂
    | cons c cs => simp [charListLt]
  | cons a as ih =>
    cases l₂ with
    | nil => simp [charListLt] at h₁
    | cons b bs =>
      cases l₃ with
      | nil => simp [charListLt] at h₂
      | cons c cs =>
        simp only [charListLt] at h₁ h₂ ⊢
        by_cases hab : a.toNat < b.toNat <;> by_cases hbc : b.toNat < c.toNat
        · have : a.toNat < c.toNat := by omega
          simp [this]
        · by_cases hcb : c.toNat < b.toNat
          · simp [hbc, hcb] at h₂
          · have hbc' : b.toNat = c.toNat := by omega
            have : a.toNat < c.toNat := by omega
            simp [this]
        · by_cases hba : b.toNat < a.toNat
          · simp [hab, hba] at h₁
          · have : a.toNat < c.toNat := by omega
            simp [this]
        · by_cases hba : b.toNat < a.toNat
          · simp [hab, hba] at h₁
          · by_cases hcb : c.toNat < b.toNat
            · simp [hbc, hcb] at h₂
            · have hac : ¬ a.toNat < c.toNat := by omega
              have hca : ¬ c.toNat < a.toNat := by omega
              simp [hab, hba] at h₁
              simp [hbc, hcb] at h₂
              simp [hac, hca]
              exact ih bs cs h₁ h₂

theorem charListLt_eq_of_not_lt (l₁ l₂ : List Char)
    (h₁ : charListLt l₁ l₂ = false) (h₂ : charListLt l₂ l₁ = false) : l₁ = l₂ := by
  induction l₁ generalizing l₂ with
  | nil =>
    cases l₂ with
    | nil => rfl
    | cons b bs => simp [charListLt] at h₁
  | cons a as ih =>
    cases l₂ with
    | nil => simp [charListLt] at h₂
    | cons b bs =>
      simp only [charListLt] at h₁ h₂
      by_cases hab : a.toNat < b.toNat
      · simp [hab] at h₁
      · by_cases hba : b.toNat < a.toNat
        · simp [hab, hba] at h₂
        · simp [hab, hba] at h₁ h₂
          have hn : a.toNat = b.toNat := by omega
          have hv : a.val = b.val := UInt32.toNat.inj hn
          have hc : a = b := by cases a; cases b; simp_all
          rw [hc, ih bs h₁ h₂]

theorem strLt_irrefl (s : String) : strLt s s = false := charListLt_irrefl s.data

theorem strLt_asymm (a b : String) (h : strLt a b = true) : strLt b a = false :=
  charListLt_asymm a.data b.data h

theorem strLt_trans (a b c : String) (h₁ : strLt a b = true)
    (h₂ : strLt b c = true) : strLt a c = true :=
  charListLt_trans a.data b.data c.data h₁ h₂

theorem strLt_eq_of_not_lt (a b : String) (h₁ : strLt a b = false)
    (h₂ : strLt b a = false) : a = b := by
  have := charListLt_eq_of_not_lt a.data b.data h₁ h₂
  cases a; cases b; simp_all

theorem strLe_total (a b : String) : strLe a b = true ∨ strLe b a = true := by
  unfold strLe
  by_cases h : strLt b a = true
  · right
    have := strLt_asymm b a h
    simp [this]
  · left
    simp at h
    simp [h]

theorem strLe_trans (a b c : String) (h₁ : strLe a b = true)
    (h₂ : strLe b c = true) : strLe a c = true := by
  unfold strLe at h₁ h₂ ⊢
  simp at h₁ h₂ ⊢
  by_contra hca
  simp at hca
  cases hbc : strLt b c with
  | true => exact absurd (strLt_trans b c a hbc hca) (by simp [h₁])
  | false =>
    have hec : b = c := strLt_eq_of_not_lt b c hbc h₂
    rw [← hec] at hca
    exact absurd hca (by simp [h₁])

/-- Generic insertion into a `le`-sorted list. -/
def insertLe {α : Type} (le : α → α → Bool) (a : α) : List α → List α
  | [] => [a]
  | b :: t => if le a b then a :: b :: t else b :: insertLe le a t

/-- Insertion sort (total comparison `le`); mirrors Python `sorted`. -/
def sortLe {α : Type} (le : α → α → Bool) : List α → List α
  | [] => []
  | a :: t => insertLe le a (sortLe le t)

theorem mem_insertLe {α : Type} (le : α → α → Bool) (a x : α) (l : List α) :
    x ∈ insertLe le a l ↔ x = a ∨ x ∈ l := by
  induction l with
  | nil => simp [insertLe]
  | cons b t ih =>
    by_cases h : le a b = true
    · simp [insertLe, h]
    · simp only [Bool.not_eq_true] at h
      simp [insertLe, h, ih]
      tauto

theorem mem_sortLe {α : Type} (le : α → α → Bool) (x : α) (l : List α) :
    x ∈ sortLe le l ↔ x ∈ l := by
  induction l with
  | nil => simp [sortLe]
  | cons a t ih => simp [sortLe, mem_insertLe, ih]

theorem perm_insertLe {α : Type} (le : α → α → Bool) (a : α) (l : List α) :
    (insertLe le a l).Perm (a :: l) := by
  induction l with
  | nil => simp [insertLe]
  | cons b t ih =>
    by_cases h : le a b = true
    · simp [insertLe, h]
    · simp only [Bool.not_eq_true] at h
      simp only [insertLe, h]
      exact List.Perm.trans (List.Perm.cons b ih) (List.Perm.swap a b t)

theorem perm_sortLe {α : Type} (le : α → α → Bool) (l : List α) :
    (sortLe le l).Perm l := by
  induction l with
  | nil => simp [sortLe]
  | cons a t ih =>
    exact (perm_insertLe le a (sortLe le t)).trans (List.Perm.cons a ih)

theorem sorted_insertLe {α : Type} (le : α → α → Bool)
    (htot : ∀ x y, le x y = true ∨ le y x = true)
    (htrans : ∀ x y z, le x y = true → le y z = true → le x z = true)
    (a : α) (l : List α) (hl : l.Pairwise (fun x y => le x y = true)) :
    (insertLe le a l).Pairwise (fun x y => le x y = true) := by
  induction l with
  | nil => simp [insertLe]
  | cons b t ih =>
    rcases List.pairwise_cons.mp hl with ⟨hb, ht⟩
    by_cases h : le a b = true
    · simp only [insertLe, h, if_true]
      refine List.pairwise_cons.mpr ⟨?_, hl⟩
      intro y hy
      rcases List.mem_cons.mp hy with hy | hy
      · rw [hy]; exact h
      · exact htrans a b y h (hb y hy)
    · simp only [Bool.not_eq_true] at h
      simp only [insertLe, h, Bool.false_eq_true, if_false]
      refine List.pairwise_cons.mpr ⟨?_, ih ht⟩
      intro y hy
      rw [mem_insertLe] at hy
      rcases hy with hy | hy
      · subst hy
        rcases htot b y with hx | hx
        · exact hx
        · rw [hx] at h; cases h
      · exact hb y hy

theorem sorted_sortLe {α : Type} (le : α → α → Bool)
    (htot : ∀ x y, le x y = true ∨ le y x = true)
    (htrans : ∀ x y z, le x y = true → le y z = true → le x z = true)
    (l : List α) :
    (sortLe le l).Pairwise (fun x y => le x y = true) := by
  induction l with
  | nil => simp [sortLe]
  | cons a t ih => exact sorted_insertLe le htot htrans a (sortLe le t) ih

/-! ## Chain and cycle lemmas -/

theorem isChainK_tail (g : Graph) (a : String) (l : List String)
    (h : isChainK g (a :: l) = true) : isChainK g l = true := by
  cases l with
  | nil => rfl
  | cons b t =>
    simp only [isChainK, Bool.and_eq_true] at h
    exact h.2

theorem isChainK_suffix (g : Graph) (l₁ l₂ : List String)
    (h : isChainK g (l₁ ++ l₂) = true) : isChainK g l₂ = true := by
  induction l₁ with
  | nil => exact h
  | cons a t ih =>
    exact ih (isChainK_tail g a (t ++ l₂) h)

theorem isChainK_snoc (g : Graph) (l : List String) (a b : String)
    (hl : isChainK g l = true) (hlast : l.getLast? = some a)
    (hab : isEdgeK g a b = true) : isChainK g (l ++ [b]) = true := by
  induction l with
  | nil => simp at hlast
  | cons x t ih =>
    cases t with
    | nil =>
      simp at hlast
      subst hlast
      simp [isChainK, hab]
    | cons y s =>
      simp only [isChainK, Bool.and_eq_true] at hl
      have hlast' : (y :: s).getLast? = some a := by
        rw [List.getLast?_cons_cons] at hlast
        exact hlast
      have := ih hl.2 hlast'
      simp only [List.cons_append, isChainK, Bool.and_eq_true]
      exact ⟨hl.1, this⟩

theorem chain_mem_keys (g : Graph) (l : List String)
    (h : isChainK g l = true) (hlen : 2 ≤ l.length) :
    ∀ n ∈ l, containsKey g n = true := by
  induction l with
  | nil => simp at hlen
  | cons a t ih =>
    cases t with
    | nil => simp at hlen
    | cons b s =>
      simp only [isChainK, Bool.and_eq_true] at h
      have ha : containsKey g a = true := by
        have := h.1
        simp only [isEdgeK, Bool.and_eq_true] at this
        exact this.1.1
      intro n hn
      rcases List.mem_cons.mp hn with hn | hn
      · rw [hn]; exact ha
      · cases s with
        | nil =>
          have hb : containsKey g b = true := by
            have := h.1
            simp only [isEdgeK, Bool.and_eq_true] at this
            exact this.1.2
          simp at hn
          rw [hn]
          exact hb
        | cons c u =>
          exact ih h.2 (by simp) n hn

theorem cycle_mem_keys (g : Graph) (l : List String) (h : IsCycleList g l) :
    ∀ n ∈ l, containsKey g n = true :=
  chain_mem_keys g l h.2.2 h.1

/-- In a chain, every element other than the head has a predecessor in
the list. -/
theorem chain_pred_in_tail (g : Graph) (l : List String)
    (h : isChainK g l = true) :
    ∀ v ∈ l.drop 1, ∃ y ∈ l, isEdgeK g y v = true := by
  induction l with
  | nil => simp
  | cons a t ih =>
    cases t with
    | nil => simp
    | cons b s =>
      simp only [isChainK, Bool.and_eq_true] at h
      intro v hv
      simp only [List.drop_one, List.tail_cons] at hv
      rcases List.mem_cons.mp hv with hv | hv
      · exact ⟨a, by simp, by rw [hv]; exact h.1⟩
      · rcases ih h.2 v (by simpa using hv) with ⟨y, hy, hedge⟩
        exact ⟨y, by simp [hy], hedge⟩

/-- In a closed walk, every member has a predecessor in the walk. -/
theorem cycle_pred (g : Graph) (l : List String) (h : IsCycleList g l) :
    ∀ v ∈ l, ∃ y ∈ l, isEdgeK g y v = true := by
  obtain ⟨hlen, hcl, hch⟩ := h
  intro v hv
  cases l with
  | nil => simp at hv
  | cons a t =>
    have ht : t ≠ [] := by
      intro hnil
      rw [hnil] at hlen
      simp at hlen
    have htail : ∀ w ∈ t, ∃ y ∈ a :: t, isEdgeK g y w = true := by
      intro w hw
      exact chain_pred_in_tail g (a :: t) hch w (by simpa using hw)
    rcases List.mem_cons.mp hv with hv | hv
    · subst hv
      have hlast : (v :: t).getLast? = some (t.getLast ht) := by
        rw [List.getLast?_cons, List.getLast?_eq_getLast t ht]
        simp
      have hhead : (v :: t).head? = some v := rfl
      rw [hcl, hlast] at hhead
      have hv' : t.getLast ht = v := by injection hhead
      have hmem : v ∈ t := by
        rw [← hv']
        exact List.getLast_mem ht
      exact htail v hmem
    · exact htail v hv

/-! ## Completeness of the DFS: invariants -/

/-- Colours are always 0, 1 or 2. -/
def validColors (c : ColorMap) : Prop := ∀ n v, lookupA c n = some v → v ≤ 2

/-- Every in-key dependency of a black node is black. -/
def blacksClosed (g : Graph) (c : ColorMap) : Prop :=
  ∀ n, lookupA c n = some 2 →
    ∀ d, d ∈ edgesOf g n → containsKey g d = true → lookupA c d = some 2

/-- No cycle consists entirely of black nodes. -/
def noBlackCycle (g : Graph) (c : ColorMap) : Prop :=
  ∀ l, IsCycleList g l → ∃ n ∈ l, lookupA c n ≠ some 2

/-- Number of white entries of the colour map. -/
def countWhite (c : ColorMap) : Nat := (c.filter (fun x => x.2 == 0)).length

theorem countWhite_setA_of_white (c : ColorMap) (n : String) (v : Nat)
    (h : lookupA c n = some 0) (hv : v ≠ 0) :
    countWhite (setA c n v) + 1 = countWhite c := by
  induction c with
  | nil => simp [lookupA] at h
  | cons hd t ih =>
    obtain ⟨k, w⟩ := hd
    by_cases hk : k = n
    · subst hk
      simp [lookupA] at h
      subst h
      simp [setA, countWhite, List.filter, hv]
    · simp [lookupA, hk] at h
      simp only [setA, hk, if_false]
      by_cases hw : w = 0
      · subst hw
        simp only [countWhite, List.filter] at ih ⊢
        simp only [beq_self_eq_true, List.length_cons]
        have := ih h
        omega
      · simp only [countWhite, List.filter] at ih ⊢
        have hw' : (w == 0) = false := by simp [hw]
        simp only [hw']
        exact ih h

theorem countWhite_setA_of_not_white (c : ColorMap) (n : String) (v v₀ : Nat)
    (h : lookupA c n = some v₀) (hv₀ : v₀ ≠ 0) (hv : v ≠ 0) :
    countWhite (setA c n v) = countWhite c := by
  induction c with
  | nil => simp [lookupA] at h
  | cons hd t ih =>
    obtain ⟨k, w⟩ := hd
    by_cases hk : k = n
    · subst hk
      simp [lookupA] at h
      subst h
      have hw : (w == 0) = false := by simp [hv₀]
      have hv' : (v == 0) = false := by simp [hv]
      simp [setA, countWhite, List.filter, hw, hv']
    · simp [lookupA, hk] at h
      simp only [setA, hk, if_false]
      simp only [countWhite, List.filter] at ih ⊢
      by_cases hw : w = 0
      · subst hw
        simp only [beq_self_eq_true, List.length_cons]
        have := ih h
        omega
      · have hw' : (w == 0) = false := by simp [hw]
        simp only [hw']
        exact ih h

theorem countWhite_le_length (c : ColorMap) : countWhite c ≤ c.length :=
  List.length_filter_le _ c

/-- Completeness contract of one DFS visit at a given fuel level. -/
def VisitComp (g : Graph) (visit : String → ColorMap → ParentMap → Option DfsSt)
    (fuel : Nat) : Prop :=
  ∀ node c p, countWhite c < fuel → keysOf c = keysOf g → validColors c →
    lookupA c node = some 0 → blacksClosed g c → noBlackCycle g c →
    visit node c p ≠ none ∧
    ∀ c' p', visit node c p = some (none, c', p') →
      keysOf c' = keysOf g ∧ validColors c' ∧
      lookupA c' node = some 2 ∧
      (∀ n, lookupA c n = some 2 → lookupA c' n = some 2) ∧
      (∀ n, lookupA c' n = some 0 → lookupA c n = some 0) ∧
      (∀ n, lookupA c n = some 1 → lookupA c' n = some 1) ∧
      (∀ n, lookupA c' n = some 1 → lookupA c n = some 1) ∧
      countWhite c' ≤ countWhite c ∧
      blacksClosed g c' ∧ noBlackCycle g c'

section FoldStep

variable (visit : String → ColorMap → ParentMap → Option DfsSt)
variable (node dep : String) (rest : List String) (c : ColorMap) (p : ParentMap)

theorem foldDeps_cons_skip (h : lookupA c dep = none) :
    foldDeps visit node (dep :: rest) c p = foldDeps visit node rest c p := by
  simp [foldDeps, h]

theorem foldDeps_cons_gray (h : lookupA c dep = some 1) :
    foldDeps visit node (dep :: rest) c p =
      some (some (buildCycle p node dep), c, p) := by
  simp [foldDeps, h]

theorem foldDeps_cons_white_fuel (h : lookupA c dep = some 0)
    (hres : visit dep c (setA p dep (some node)) = none) :
    foldDeps visit node (dep :: rest) c p = none := by
  simp [foldDeps, h, hres]

theorem foldDeps_cons_white_cyc (h : lookupA c dep = some 0) (cyc : List String)
    (c₂ : ColorMap) (p₂ : ParentMap)
    (hres : visit dep c (setA p dep (some node)) = some (some cyc, c₂, p₂)) :
    foldDeps visit node (dep :: rest) c p = some (some cyc, c₂, p₂) := by
  simp [foldDeps, h, hres]

theorem foldDeps_cons_white_ok (h : lookupA c dep = some 0)
    (c₂ : ColorMap) (p₂ : ParentMap)
    (hres : visit dep c (setA p dep (some node)) = some (none, c₂, p₂)) :
    foldDeps visit node (dep :: rest) c p = foldDeps visit node rest c₂ p₂ := by
  simp [foldDeps, h, hres]

theorem foldDeps_cons_black (v : Nat) (h : lookupA c dep = some (v + 2)) :
    foldDeps visit node (dep :: rest) c p = foldDeps visit node rest c p := by
  simp [foldDeps, h]

end FoldStep

theorem foldDeps_comp (g : Graph)
    (visit : String → ColorMap → ParentMap → Option DfsSt) (fuel : Nat)
    (hv : VisitComp g visit fuel) (node : String) :
    ∀ deps c p, keysOf c = keysOf g → validColors c →
      lookupA c node = some 1 → blacksClosed g c → noBlackCycle g c →
      countWhite c < fuel →
      foldDeps visit node deps c p ≠ none ∧
      ∀ c' p', foldDeps visit node deps c p = some (none, c', p') →
        keysOf c' = keysOf g ∧ validColors c' ∧
        lookupA c' node = some 1 ∧
        (∀ n, lookupA c n = some 2 → lookupA c' n = some 2) ∧
        (∀ n, lookupA c' n = some 0 → lookupA c n = some 0) ∧
        (∀ n, lookupA c n = some 1 → lookupA c' n = some 1) ∧
        (∀ n, lookupA c' n = some 1 → lookupA c n = some 1) ∧
        countWhite c' ≤ countWhite c ∧
        blacksClosed g c' ∧ noBlackCycle g c' ∧
        (∀ d ∈ deps, containsKey g d = true → lookupA c' d = some 2) := by
  intro deps
  induction deps with
  | nil =>
    intro c p hdom hval hgray hbc hnbc hcw
    constructor
    · simp [foldDeps]
    · intro c' p' heq
      simp only [foldDeps, Option.some.injEq, Prod.mk.injEq] at heq
      obtain ⟨-, rfl, rfl⟩ := heq
      exact ⟨hdom, hval, hgray, fun n h => h, fun n h => h, fun n h => h,
        fun n h => h, le_refl _, hbc, hnbc, by simp⟩
  | cons dep rest ih =>
    intro c p hdom hval hgray hbc hnbc hcw
    cases hlk : lookupA c dep with
    | none =>
      have hkey : containsKey g dep = false := by
        have h1 : containsKey c dep = false := by
          cases h : containsKey c dep
          · rfl
          · rcases lookupA_isSome_of_containsKey c dep h with ⟨v, hv'⟩
            rw [hv'] at hlk
            cases hlk
        have h2 : containsKey c dep = containsKey g dep := by
          simp [containsKey, hdom]
        rw [← h2]
        exact h1
      rw [foldDeps_cons_skip visit node dep rest c p hlk]
      rcases ih c p hdom hval hgray hbc hnbc hcw with ⟨hne, hpost⟩
      refine ⟨hne, ?_⟩
      intro c' p' heq
      rcases hpost c' p' heq with ⟨h1, h2, h3, h4, h5, h6, h7, h8, h9, h10, h11⟩
      refine ⟨h1, h2, h3, h4, h5, h6, h7, h8, h9, h10, ?_⟩
      intro d hd hkd
      rcases List.mem_cons.mp hd with hd | hd
      · subst hd
        rw [hkey] at hkd
        cases hkd
      · exact h11 d hd hkd
    | some v =>
      match v, hlk with
      | 1, hlk =>
        rw [foldDeps_cons_gray visit node dep rest c p hlk]
        constructor
        · simp
        · intro c' p' heq
          cases heq
      | 0, hlk =>
        have hchild := hv dep c (setA p dep (some node)) hcw hdom hval hlk hbc hnbc
        rcases hchild with ⟨hcne, hcpost⟩
        cases hres : visit dep c (setA p dep (some node)) with
        | none => exact absurd hres hcne
        | some st =>
          obtain ⟨cyc?, c₂, p₂⟩ := st
          cases cyc? with
          | some cyc =>
            rw [foldDeps_cons_white_cyc visit node dep rest c p hlk cyc c₂ p₂ hres]
            constructor
            · simp
            · intro c' p' heq
              cases heq
          | none =>
            rcases hcpost c₂ p₂ hres with
              ⟨hd1, hd2, hd3, hd4, hd5, hd6, hd7, hd8, hd9, hd10⟩
            have hgray₂ : lookupA c₂ node = some 1 := hd6 node hgray
            have hcw₂ : countWhite c₂ < fuel := lt_of_le_of_lt hd8 hcw
            rw [foldDeps_cons_white_ok visit node dep rest c p hlk c₂ p₂ hres]
            rcases ih c₂ p₂ hd1 hd2 hgray₂ hd9 hd10 hcw₂ with ⟨hne, hpost⟩
            refine ⟨hne, ?_⟩
            intro c' p' heq
            rcases hpost c' p' heq with ⟨h1, h2, h3, h4, h5, h6, h7, h8, h9, h10, h11⟩
            refine ⟨h1, h2, h3, fun n h => h4 n (hd4 n h), fun n h => hd5 n (h5 n h),
              fun n h => h6 n (hd6 n h), fun n h => hd7 n (h7 n h),
              le_trans h8 hd8, h9, h10, ?_⟩
            intro d hd hkd
            rcases List.mem_cons.mp hd with hd | hd
            · subst hd
              exact h4 d hd3
            · exact h11 d hd hkd
      | (w + 2), hlk =>
        have hw : w + 2 ≤ 2 := hval dep (w + 2) hlk
        have hw2 : w = 0 := by omega
        subst hw2
        rw [foldDeps_cons_black visit node dep rest c p 0 hlk]
        rcases ih c p hdom hval hgray hbc hnbc hcw with ⟨hne, hpost⟩
        refine ⟨hne, ?_⟩
        intro c' p' heq
        rcases hpost c' p' heq with ⟨h1, h2, h3, h4, h5, h6, h7, h8, h9, h10, h11⟩
        refine ⟨h1, h2, h3, h4, h5, h6, h7, h8, h9, h10, ?_⟩
        intro d hd hkd
        rcases List.mem_cons.mp hd with hd | hd
        · subst hd
          exact h4 d hlk
        · exact h11 d hd hkd

theorem dfsVisit_succ (g : Graph) (fuel : Nat) (node : String) (c : ColorMap)
    (p : ParentMap) :
    dfsVisit g (fuel + 1) node c p =
      match foldDeps (dfsVisit g fuel) node (edgesOf g node) (setA c node 1) p with
      | none => none
      | some (some cyc, c', p') => some (some cyc, c', p')
      | some (none, c', p') => some (none, setA c' node 2, p') := rfl

theorem dfsVisit_comp (g : Graph) : ∀ fuel, VisitComp g (dfsVisit g fuel) fuel := by
  intro fuel
  induction fuel with
  | zero =>
    intro node c p hcw
    omega
  | succ fuel ih =>
    intro node c p hcw hdom hval hwhite hbc hnbc
    have hkeyc : containsKey c node = true := containsKey_of_lookupA c node 0 hwhite
    have hdom₁ : keysOf (setA c node 1) = keysOf g := by
      rw [keysOf_setA_of_mem c node 1 hkeyc]
      exact hdom
    have hval₁ : validColors (setA c node 1) := by
      intro n v h
      by_cases hn : n = node
      · subst hn
        rw [lookupA_setA_self] at h
        injection h with h
        omega
      · rw [lookupA_setA_ne c node n 1 (fun he => hn he.symm)] at h
        exact hval n v h
    have hgray₁ : lookupA (setA c node 1) node = some 1 := lookupA_setA_self c node 1
    have hbc₁ : blacksClosed g (setA c node 1) := by
      intro n hn d hd hkd
      have hnn : n ≠ node := by
        intro he
        subst he
        rw [hgray₁] at hn
        cases hn
      rw [lookupA_setA_ne c node n 1 (fun he => hnn he.symm)] at hn
      have hdb := hbc n hn d hd hkd
      by_cases hdn : d = node
      · subst hdn
        rw [hwhite] at hdb
        cases hdb
      · rw [lookupA_setA_ne c node d 1 (fun he => hdn he.symm)]
        exact hdb
    have hnbc₁ : noBlackCycle g (setA c node 1) := by
      intro l hl
      rcases hnbc l hl with ⟨m, hm, hmne⟩
      refine ⟨m, hm, ?_⟩
      by_cases hmn : m = node
      · subst hmn
        rw [hgray₁]
        simp
      · rw [lookupA_setA_ne c node m 1 (fun he => hmn he.symm)]
        exact hmne
    have hcw₁ : countWhite (setA c node 1) + 1 = countWhite c :=
      countWhite_setA_of_white c node 1 hwhite (by omega)
    have hcwlt : countWhite (setA c node 1) < fuel := by omega
    rcases foldDeps_comp g (dfsVisit g fuel) fuel ih node (edgesOf g node)
      (setA c node 1) p hdom₁ hval₁ hgray₁ hbc₁ hnbc₁ hcwlt with ⟨hne, hpost⟩
    cases hfres : foldDeps (dfsVisit g fuel) node (edgesOf g node) (setA c node 1) p with
    | none => exact absurd hfres hne
    | some st =>
      obtain ⟨cyc?, cE, pE⟩ := st
      cases cyc? with
      | some cyc =>
        constructor
        · rw [dfsVisit_succ, hfres]
          simp
        · intro c' p' heq
          rw [dfsVisit_succ, hfres] at heq
          simp at heq
      | none =>
        rcases hpost cE pE hfres with ⟨h1, h2, h3, h4, h5, h6, h7, h8, h9, h10, h11⟩
        have hkeyE : containsKey cE node = true := containsKey_of_lookupA cE node 1 h3
        constructor
        · rw [dfsVisit_succ, hfres]
          simp
        · intro c' p' heq
          rw [dfsVisit_succ, hfres] at heq
          simp only [Option.some.injEq, Prod.mk.injEq] at heq
          obtain ⟨-, rfl, rfl⟩ := heq
          have hblack : lookupA (setA cE node 2) node = some 2 := lookupA_setA_self cE node 2
          have hother : ∀ n, n ≠ node → lookupA (setA cE node 2) n = lookupA cE n := by
            intro n hn
            exact lookupA_setA_ne cE node n 2 (fun he => hn he.symm)
          refine ⟨?_, ?_, hblack, ?_, ?_, ?_, ?_, ?_, ?_, ?_⟩
          · rw [keysOf_setA_of_mem cE node 2 hkeyE]
            exact h1
          · intro n v h
            by_cases hn : n = node
            · subst hn
              rw [hblack] at h
              injection h with h
              omega
            · rw [hother n hn] at h
              exact h2 n v h
          · intro n hn
            have hnn : n ≠ node := by
              intro he
              subst he
              rw [hwhite] at hn
              cases hn
            rw [hother n hnn]
            apply h4
            rw [lookupA_setA_ne c node n 1 (fun he => hnn he.symm)]
            exact hn
          · intro n hn
            have hnn : n ≠ node := by
              intro he
              subst he
              rw [hblack] at hn
              cases hn
            rw [hother n hnn] at hn
            have := h5 n hn
            rw [lookupA_setA_ne c node n 1 (fun he => hnn he.symm)] at this
            exact this
          · intro n hn
            have hnn : n ≠ node := by
              intro he
              subst he
              rw [hwhite] at hn
              cases hn
            rw [hother n hnn]
            apply h6
            rw [lookupA_setA_ne c node n 1 (fun he => hnn he.symm)]
            exact hn
          · intro n hn
            have hnn : n ≠ node := by
              intro he
              subst he
              rw [hblack] at hn
              cases hn
            rw [hother n hnn] at hn
            have := h7 n hn
            rw [lookupA_setA_ne c node n 1 (fun he => hnn he.symm)] at this
            exact this
          · have hcwE : countWhite (setA cE node 2) = countWhite cE :=
              countWhite_setA_of_not_white cE node 2 1 h3 (by omega) (by omega)
            omega
          · intro n hn d hd hkd
            by_cases hdn : d = node
            · subst hdn
              exact hblack
            · rw [hother d hdn]
              by_cases hnn : n = node
              · subst hnn
                have := h11 d hd hkd
                exact this
              · rw [hother n hnn] at hn
                exact h9 n hn d hd hkd
          · intro l hl
            by_contra hcon
            push_neg at hcon
            by_cases hnode : node ∈ l
            · rcases cycle_pred g l hl node hnode with ⟨y, hy, hedge⟩
              simp only [isEdgeK, Bool.and_eq_true] at hedge
              obtain ⟨⟨hky, hknode⟩, hmem⟩ := hedge
              rw [List.elem_iff] at hmem
              by_cases hyn : y = node
              · rw [hyn] at hmem
                have hb := h11 node hmem hknode
                rw [h3] at hb
                cases hb
              · have hyblack := hcon y hy
                rw [hother y hyn] at hyblack
                have hx := h9 y hyblack node hmem hknode
                rw [h3] at hx
                cases hx
            · rcases h10 l hl with ⟨m, hm, hmne⟩
              have hmn : m ≠ node := fun he => hnode (he ▸ hm)
              have := hcon m hm
              rw [hother m hmn] at this
              exact hmne this

theorem keysOf_constMap {α β : Type} (g : List (String × α)) (z : β) :
    keysOf (g.map (fun x => (x.1, z))) = keysOf g := by
  simp [keysOf, List.map_map]

theorem lookupA_constMap {α β : Type} (g : List (String × α)) (z : β) (k : String) :
    lookupA (g.map (fun x => (x.1, z))) k =
      if containsKey g k then some z else none := by
  induction g with
  | nil => simp [lookupA, containsKey, keysOf]
  | cons hd t ih =>
    obtain ⟨k₀, v₀⟩ := hd
    by_cases hk : k₀ = k
    · simp [lookupA, hk, containsKey, keysOf, List.elem_iff]
    · simp only [List.map_cons, lookupA, hk, if_false, ih]
      have h2 : containsKey ((k₀, v₀) :: t) k = containsKey t k := by
        simp [containsKey, keysOf, List.elem_iff, hk]
        intro h
        exact absurd h.symm hk
      rw [h2]

theorem detectLoop_cons (g : Graph) (n : String) (rest : List String)
    (c : ColorMap) (p : ParentMap) :
    detectLoop g (n :: rest) c p =
      if lookupA c n = some 0 then
        match dfsVisit g (g.length + 1) n c p with
        | none => none
        | some (some cyc, _, _) => some cyc
        | some (none, c', p') => detectLoop g rest c' p'
      else detectLoop g rest c p := rfl

theorem countWhite_lt_of_dom (g : Graph) (c : ColorMap)
    (hdom : keysOf c = keysOf g) : countWhite c < g.length + 1 := by
  have h1 : countWhite c ≤ c.length := countWhite_le_length c
  have h2 : c.length = (keysOf c).length := by simp [keysOf]
  have h3 : (keysOf c).length = (keysOf g).length := by rw [hdom]
  have h4 : (keysOf g).length = g.length := by simp [keysOf]
  omega

theorem detectLoop_comp (g : Graph) :
    ∀ rest c p, keysOf c = keysOf g → validColors c →
      (∀ n, lookupA c n ≠ some 1) →
      blacksClosed g c → noBlackCycle g c →
      (∀ n, n ∈ keysOf g → n ∉ rest → lookupA c n = some 2) →
      detectLoop g rest c p = none → Acyclic g := by
  intro rest
  induction rest with
  | nil =>
    intro c p hdom hval hng hbc hnbc hdone heq
    rintro ⟨l, hl⟩
    rcases hnbc l hl with ⟨m, hm, hmne⟩
    have hmk : containsKey g m = true := cycle_mem_keys g l hl m hm
    have hmem : m ∈ keysOf g := by
      rw [containsKey] at hmk
      exact List.elem_iff.mp hmk
    exact hmne (hdone m hmem (by simp))
  | cons n rest ih =>
    intro c p hdom hval hng hbc hnbc hdone heq
    rw [detectLoop_cons] at heq
    by_cases hwhite : lookupA c n = some 0
    · rw [if_pos hwhite] at heq
      have hcw : countWhite c < g.length + 1 := countWhite_lt_of_dom g c hdom
      rcases dfsVisit_comp g (g.length + 1) n c p hcw hdom hval hwhite hbc hnbc with
        ⟨hne, hpost⟩
      cases hres : dfsVisit g (g.length + 1) n c p with
      | none => exact absurd hres hne
      | some st =>
        obtain ⟨cyc?, c', p'⟩ := st
        cases cyc? with
        | some cyc =>
          rw [hres] at heq
          cases heq
        | none =>
          rw [hres] at heq
          rcases hpost c' p' hres with ⟨h1, h2, h3, h4, h5, h6, h7, h8, h9, h10⟩
          refine ih c' p' h1 h2 ?_ h9 h10 ?_ heq
          · intro m hm
            have := h7 m hm
            exact hng m this
          · intro m hmk hmrest
            by_cases hmn : m = n
            · rw [hmn]
              exact h3
            · have hmc : lookupA c m = some 2 := by
                apply hdone m hmk
                intro hcon
                rcases List.mem_cons.mp hcon with hcon | hcon
                · exact hmn hcon
                · exact hmrest hcon
              exact h4 m hmc
    · rw [if_neg hwhite] at heq
      refine ih c p hdom hval hng hbc hnbc ?_ heq
      intro m hmk hmrest
      by_cases hmn : m = n
      · subst hmn
        have hck : containsKey c m = true := by
          rw [containsKey, hdom]
          exact List.elem_iff.mpr hmk
        rcases lookupA_isSome_of_containsKey c m hck with ⟨v, hv⟩
        have hv2 : v ≤ 2 := hval m v hv
        have hv0 : v ≠ 0 := by
          intro he
          rw [he] at hv
          exact hwhite hv
        have hv1 : v ≠ 1 := by
          intro he
          rw [he] at hv
          exact hng m hv
        have : v = 2 := by omega
        rw [← this]
        exact hv
      · apply hdone m hmk
        intro hcon
        rcases List.mem_cons.mp hcon with hcon | hcon
        · exact hmn hcon
        · exact hmrest hcon

/-- Completeness: if the DFS reports no cycle, the key-restricted graph
is acyclic. -/
theorem detect_cycle_none_imp_acyclic (g : Graph)
    (h : detect_cycle g = none) : Acyclic g := by
  unfold detect_cycle at h
  refine detectLoop_comp g (keysOf g) _ _ (keysOf_constMap g 0) ?_ ?_ ?_ ?_ ?_ h
  · intro n v hv
    rw [lookupA_constMap] at hv
    by_cases hc : containsKey g n = true
    · rw [if_pos hc] at hv
      injection hv with hv
      omega
    · rw [if_neg hc] at hv
      cases hv
  · intro n hv
    rw [lookupA_constMap] at hv
    by_cases hc : containsKey g n = true
    · rw [if_pos hc] at hv
      cases hv
    · rw [if_neg hc] at hv
      cases hv
  · intro n hn d hd hkd
    rw [lookupA_constMap] at hn
    by_cases hc : containsKey g n = true
    · rw [if_pos hc] at hn
      cases hn
    · rw [if_neg hc] at hn
      cases hn
  · intro l hl
    obtain ⟨hlen, -, -⟩ := hl
    cases l with
    | nil => simp at hlen
    | cons a t =>
      refine ⟨a, by simp, ?_⟩
      rw [lookupA_constMap]
      by_cases hc : containsKey g a = true
      · rw [if_pos hc]
        simp
      · rw [if_neg hc]
        simp
  · intro m hmk hmrest
    exact absurd hmk hmrest

/-! ## Soundness of the DFS: a reported path is a genuine cycle -/

theorem reverse_tail_reverse {α : Type} (l : List α) :
    l.reverse.tail.reverse = l.dropLast := by
  induction l using List.reverseRecOn with
  | nil => rfl
  | append_singleton xs x ih => simp

/-- `Chain'` of a parent-pointer relation only inspects list members, so
it is stable under pointwise-equal parent maps. -/
theorem chain_parent_congr (p p' : ParentMap) (l : List String)
    (hpp : ∀ b ∈ l, lookupA p' b = lookupA p b)
    (h : List.Chain' (fun a b => lookupA p b = some (some a)) l) :
    List.Chain' (fun a b => lookupA p' b = some (some a)) l := by
  induction l with
  | nil => exact List.chain'_nil
  | cons x t ih =>
    cases t with
    | nil => simp
    | cons y s =>
      rw [List.chain'_cons] at h ⊢
      refine ⟨?_, ih (fun b hb => hpp b (List.mem_cons_of_mem x hb)) h.2⟩
      rw [hpp y (by simp)]
      exact h.1

/-- Sufficiency and output of `buildCycleAux` along a recorded parent
chain `w₀ :: … :: wₗ` with `wₗ = dep` and no earlier occurrence of
`dep`. -/
theorem buildCycleAux_spec (p : ParentMap) (dep : String) :
    ∀ chain : List String, ∀ fuel acc, ∀ w₀,
      chain.head? = some w₀ →
      List.Chain' (fun a b => lookupA p a = some (some b)) chain →
      chain.getLast? = some dep →
      (∀ x ∈ chain.dropLast, x ≠ dep) →
      chain.length ≤ fuel + 1 →
      buildCycleAux p fuel dep w₀ acc = acc ++ chain.tail := by
  intro chain
  induction chain with
  | nil => intro fuel acc w₀ hh; simp at hh
  | cons x t ih =>
    intro fuel acc w₀ hh hch hlast hdl hlen
    have hx : w₀ = x := by
      simp at hh
      exact hh.symm
    subst hx
    cases t with
    | nil =>
      have hxd : w₀ = dep := by
        simp at hlast
        exact hlast
      subst hxd
      cases fuel with
      | zero => simp [buildCycleAux]
      | succ f => simp [buildCycleAux]
    | cons y s =>
      have hxd : w₀ ≠ dep := by
        apply hdl
        simp [List.dropLast_cons_of_ne_nil]
      have hlink : lookupA p w₀ = some (some y) := (List.chain'_cons.mp hch).1
      cases fuel with
      | zero =>
        exfalso
        simp at hlen
      | succ f =>
        have hstep : buildCycleAux p (f + 1) dep w₀ acc =
            buildCycleAux p f dep y (acc ++ [y]) := by
          simp [buildCycleAux, hxd, hlink]
        rw [hstep]
        have hres := ih f (acc ++ [y]) y (by simp)
          (List.chain'_cons.mp hch).2
          (by
            rw [List.getLast?_cons_cons] at hlast
            exact hlast)
          (by
            intro z hz
            apply hdl
            rw [List.dropLast_cons_of_ne_nil (by simp)]
            exact List.mem_cons_of_mem w₀ hz)
          (by simp at hlen ⊢; omega)
        rw [hres]
        simp

/-- At a gray-hit, the reconstructed path is a genuine cycle of the
graph. -/
theorem buildCycle_cycle (g : Graph) (p : ParentMap) (stackN : List String)
    (node dep : String)
    (hch : isChainK g stackN = true)
    (hpl : List.Chain' (fun a b => lookupA p b = some (some a)) stackN)
    (hnd : stackN.Nodup)
    (hlast : stackN.getLast? = some node)
    (hdep : dep ∈ stackN)
    (hlen : stackN.length ≤ p.length + 1)
    (hedge : isEdgeK g node dep = true) :
    IsCycleList g (buildCycle p node dep) := by
  rcases List.append_of_mem hdep with ⟨l₁, l₂, rfl⟩
  have htailch : isChainK g (dep :: l₂) = true := isChainK_suffix g l₁ (dep :: l₂) hch
  have htailpl : List.Chain' (fun a b => lookupA p b = some (some a)) (dep :: l₂) :=
    (List.chain'_append.mp hpl).2.1
  have htailnd : (dep :: l₂).Nodup :=
    (List.sublist_append_right l₁ (dep :: l₂)).nodup hnd
  have htaillast : (dep :: l₂).getLast? = some node := by
    rw [List.getLast?_append] at hlast
    cases hl2 : (dep :: l₂).getLast? with
    | none => simp at hl2
    | some a =>
      rw [hl2] at hlast
      simp at hlast
      rw [hlast]
  have hup : ((dep :: l₂).reverse).head? = some node := by
    rw [List.head?_reverse]
    exact htaillast
  have hupch : List.Chain' (fun a b => lookupA p a = some (some b))
      ((dep :: l₂).reverse) := by
    rw [List.chain'_reverse]
    exact htailpl.imp (fun a b h => h)
  have huplast : ((dep :: l₂).reverse).getLast? = some dep := by
    rw [List.getLast?_reverse]
    rfl
  have hupdl : ∀ x ∈ ((dep :: l₂).reverse).dropLast, x ≠ dep := by
    have hrw : ((dep :: l₂).reverse).dropLast = l₂.reverse := by
      rw [List.reverse_cons, List.dropLast_concat]
    rw [hrw]
    intro x hx he
    subst he
    have : x ∈ l₂ := List.mem_reverse.mp hx
    exact (List.nodup_cons.mp htailnd).1 this
  have hlenup : ((dep :: l₂).reverse).length ≤ (p.length + 1) + 1 := by
    have h1 : ((dep :: l₂).reverse).length = l₂.length + 1 := by simp
    have h2 : (l₁ ++ dep :: l₂).length = l₁.length + l₂.length + 1 := by simp; omega
    omega
  have hba := buildCycleAux_spec p dep ((dep :: l₂).reverse) (p.length + 1)
    [dep, node] node hup hupch huplast hupdl hlenup
  have hbc : buildCycle p node dep = (dep :: l₂) ++ [dep] := by
    unfold buildCycle
    rw [hba]
    rw [List.reverse_append]
    rw [reverse_tail_reverse]
    have hne : (dep :: l₂) ≠ [] := by simp
    have hgl : (dep :: l₂).getLast hne = node := by
      rw [List.getLast?_eq_getLast _ hne] at htaillast
      injection htaillast
    have : (dep :: l₂).dropLast ++ [node] = dep :: l₂ := by
      rw [← hgl]
      exact List.dropLast_append_getLast hne
    calc ((dep :: l₂).dropLast) ++ [node, dep]
        = ((dep :: l₂).dropLast ++ [node]) ++ [dep] := by simp
      _ = (dep :: l₂) ++ [dep] := by rw [this]
  rw [hbc]
  refine ⟨by simp, ?_, ?_⟩
  · rw [List.getLast?_concat]
    rfl
  · exact isChainK_snoc g (dep :: l₂) node dep htailch htaillast hedge

theorem nodup_length_le (l m : List String) (hnd : l.Nodup)
    (hsub : ∀ x ∈ l, x ∈ m) : l.length ≤ m.length := by
  have h1 : l.toFinset.card = l.length := List.toFinset_card_of_nodup hnd
  have h2 : l.toFinset ⊆ m.toFinset := by
    intro x hx
    rw [List.mem_toFinset] at hx ⊢
    exact hsub x hx
  have h3 : l.toFinset.card ≤ m.toFinset.card := Finset.card_le_card h2
  have h4 : m.toFinset.card ≤ m.length := List.toFinset_card_le m
  omega

/-- Soundness contract of one DFS visit. -/
def VisitSound (g : Graph) (visit : String → ColorMap → ParentMap → Option DfsSt) :
    Prop :=
  ∀ node c p stack,
    keysOf c = keysOf g → keysOf p = keysOf g →
    (∀ n, lookupA c n = some 1 ↔ n ∈ stack) →
    isChainK g (stack ++ [node]) = true →
    List.Chain' (fun a b => lookupA p b = some (some a)) (stack ++ [node]) →
    (stack ++ [node]).Nodup →
    lookupA c node = some 0 →
    containsKey g node = true →
    (∀ cyc c' p', visit node c p = some (some cyc, c', p') → IsCycleList g cyc) ∧
    (∀ c' p', visit node c p = some (none, c', p') →
      keysOf c' = keysOf g ∧ keysOf p' = keysOf g ∧
      (∀ n, lookupA c' n = some 1 ↔ n ∈ stack) ∧
      (∀ n, lookupA c n ≠ some 0 → lookupA p' n = lookupA p n) ∧
      (∀ n, lookupA c' n = some 0 → lookupA c n = some 0))

theorem foldDeps_sound (g : Graph)
    (visit : String → ColorMap → ParentMap → Option DfsSt)
    (hv : VisitSound g visit) (node : String) (stackN : List String) :
    ∀ deps c p,
      (∀ d ∈ deps, d ∈ edgesOf g node) →
      keysOf c = keysOf g → keysOf p = keysOf g →
      (∀ n, lookupA c n = some 1 ↔ n ∈ stackN) →
      isChainK g stackN = true →
      List.Chain' (fun a b => lookupA p b = some (some a)) stackN →
      stackN.Nodup →
      stackN.getLast? = some node →
      containsKey g node = true →
      (∀ cyc c' p', foldDeps visit node deps c p = some (some cyc, c', p') →
        IsCycleList g cyc) ∧
      (∀ c' p', foldDeps visit node deps c p = some (none, c', p') →
        keysOf c' = keysOf g ∧ keysOf p' = keysOf g ∧
        (∀ n, lookupA c' n = some 1 ↔ n ∈ stackN) ∧
        (∀ n, lookupA c n ≠ some 0 → lookupA p' n = lookupA p n) ∧
        (∀ n, lookupA c' n = some 0 → lookupA c n = some 0)) := by
  intro deps
  induction deps with
  | nil =>
    intro c p hsub hdomc hdomp hgi hch hpl hnd hlast hkn
    constructor
    · intro cyc c' p' heq
      simp [foldDeps] at heq
    · intro c' p' heq
      simp only [foldDeps, Option.some.injEq, Prod.mk.injEq] at heq
      obtain ⟨-, rfl, rfl⟩ := heq
      exact ⟨hdomc, hdomp, hgi, fun n _ => rfl, fun n h => h⟩
  | cons dep rest ih =>
    intro c p hsub hdomc hdomp hgi hch hpl hnd hlast hkn
    have hsub' : ∀ d ∈ rest, d ∈ edgesOf g node := by
      intro d hd
      exact hsub d (List.mem_cons_of_mem dep hd)
    have hdepedge : dep ∈ edgesOf g node := hsub dep (by simp)
    cases hlk : lookupA c dep with
    | none =>
      rw [foldDeps_cons_skip visit node dep rest c p hlk]
      exact ih c p hsub' hdomc hdomp hgi hch hpl hnd hlast hkn
    | some v =>
      match v, hlk with
      | 1, hlk =>
        rw [foldDeps_cons_gray visit node dep rest c p hlk]
        constructor
        · intro cyc c' p' heq
          simp only [Option.some.injEq, Prod.mk.injEq] at heq
          obtain ⟨hcyc, -, -⟩ := heq
          rw [← hcyc]
          have hdepst : dep ∈ stackN := (hgi dep).mp hlk
          have hkdep : containsKey g dep = true := by
            have h := containsKey_of_lookupA c dep 1 hlk
            rw [containsKey, hdomc] at h
            rw [containsKey]
            exact h
          have hlensn : stackN.length ≤ p.length + 1 := by
            have hmem : ∀ x ∈ stackN, x ∈ keysOf p := by
              intro x hx
              have hgray := (hgi x).mpr hx
              have hck : containsKey c x = true := containsKey_of_lookupA c x 1 hgray
              rw [containsKey, hdomc, ← hdomp] at hck
              exact List.elem_iff.mp hck
            have := nodup_length_le stackN (keysOf p) hnd hmem
            have hlp : (keysOf p).length = p.length := by simp [keysOf]
            omega
          have hedge : isEdgeK g node dep = true := by
            simp only [isEdgeK, Bool.and_eq_true]
            exact ⟨⟨hkn, hkdep⟩, List.elem_iff.mpr hdepedge⟩
          exact buildCycle_cycle g p stackN node dep hch hpl hnd hlast hdepst
            hlensn hedge
        · intro c' p' heq
          simp at heq
      | 0, hlk =>
        have hdepnst : dep ∉ stackN := by
          intro hmem
          have := (hgi dep).mpr hmem
          rw [hlk] at this
          cases this
        have hkdep : containsKey g dep = true := by
          have := containsKey_of_lookupA c dep 0 hlk
          rw [containsKey, hdomc] at this
          exact this
        have hdomp₁ : keysOf (setA p dep (some node)) = keysOf g := by
          have hkp : containsKey p dep = true := by
            rw [containsKey, hdomp]
            exact hkdep
          rw [keysOf_setA_of_mem p dep (some node) hkp]
          exact hdomp
        have hedge : isEdgeK g node dep = true := by
          simp only [isEdgeK, Bool.and_eq_true]
          exact ⟨⟨hkn, hkdep⟩, List.elem_iff.mpr hdepedge⟩
        have hch₁ : isChainK g (stackN ++ [dep]) = true :=
          isChainK_snoc g stackN node dep hch hlast hedge
        have hpl₁ : List.Chain' (fun a b =>
            lookupA (setA p dep (some node)) b = some (some a)) (stackN ++ [dep]) := by
          rw [List.chain'_append]
          refine ⟨?_, List.chain'_singleton dep, ?_⟩
          · apply chain_parent_congr p
            · intro b hb
              apply lookupA_setA_ne
              intro he
              exact hdepnst (by rw [he]; exact hb)
            · exact hpl
          · intro x hx y hy
            simp at hy
            subst hy
            rw [lookupA_setA_self]
            have hxn : x = node := by
              rw [hlast] at hx
              exact (by simpa using hx : node = x).symm
            rw [hxn]
        have hnd₁ : (stackN ++ [dep]).Nodup := by
          rw [List.nodup_append]
          exact ⟨hnd, List.nodup_singleton dep, by
            intro a ha hb
            simp at hb
            subst hb
            exact hdepnst ha⟩
        rcases hv dep c (setA p dep (some node)) stackN hdomc hdomp₁ hgi hch₁
          hpl₁ hnd₁ hlk hkdep with ⟨hvc, hvn⟩
        cases hres : visit dep c (setA p dep (some node)) with
        | none =>
          rw [foldDeps_cons_white_fuel visit node dep rest c p hlk hres]
          constructor
          · intro cyc c' p' heq
            cases heq
          · intro c' p' heq
            cases heq
        | some st =>
          obtain ⟨cyc?, c₂, p₂⟩ := st
          cases cyc? with
          | some cyc =>
            rw [foldDeps_cons_white_cyc visit node dep rest c p hlk cyc c₂ p₂ hres]
            constructor
            · intro cyc' c' p' heq
              simp only [Option.some.injEq, Prod.mk.injEq] at heq
              obtain ⟨hcyc, -, -⟩ := heq
              rw [← hcyc]
              exact hvc cyc c₂ p₂ hres
            · intro c' p' heq
              simp at heq
          | none =>
            rcases hvn c₂ p₂ hres with ⟨hs1, hs2, hs3, hs4, hs5⟩
            rw [foldDeps_cons_white_ok visit node dep rest c p hlk c₂ p₂ hres]
            have hppres : ∀ b ∈ stackN, lookupA p₂ b = lookupA p b := by
              intro b hb
              have hgray := (hgi b).mpr hb
              have hnw : lookupA c b ≠ some 0 := by
                rw [hgray]
                simp
              rw [hs4 b hnw]
              apply lookupA_setA_ne
              intro he
              exact hdepnst (by rw [he]; exact hb)
            have hpl₂ : List.Chain' (fun a b => lookupA p₂ b = some (some a)) stackN :=
              chain_parent_congr p p₂ stackN hppres hpl
            rcases ih c₂ p₂ hsub' hs1 hs2 hs3 hch hpl₂ hnd hlast hkn with ⟨hrc, hrn⟩
            constructor
            · exact hrc
            · intro c' p' heq
              rcases hrn c' p' heq with ⟨ht1, ht2, ht3, ht4, ht5⟩
              refine ⟨ht1, ht2, ht3, ?_, fun n h => hs5 n (ht5 n h)⟩
              intro n hnw
              have hnw₂ : lookupA c₂ n ≠ some 0 := by
                intro hw
                exact hnw (hs5 n hw)
              rw [ht4 n hnw₂, hs4 n hnw]
              apply lookupA_setA_ne
              intro he
              subst he
              rw [hlk] at hnw
              exact hnw rfl
      | (w + 2), hlk =>
        rw [foldDeps_cons_black visit node dep rest c p w hlk]
        exact ih c p hsub' hdomc hdomp hgi hch hpl hnd hlast hkn

theorem dfsVisit_sound (g : Graph) : ∀ fuel, VisitSound g (dfsVisit g fuel) := by
  intro fuel
  induction fuel with
  | zero =>
    intro node c p stack hdomc hdomp hgi hch hpl hnd hwhite hkn
    constructor
    · intro cyc c' p' heq
      cases heq
    · intro c' p' heq
      cases heq
  | succ fuel ih =>
    intro node c p stack hdomc hdomp hgi hch hpl hnd hwhite hkn
    have hkeyc : containsKey c node = true := containsKey_of_lookupA c node 0 hwhite
    have hdomc₁ : keysOf (setA c node 1) = keysOf g := by
      rw [keysOf_setA_of_mem c node 1 hkeyc]
      exact hdomc
    have hnodest : node ∉ stack := by
      rw [List.nodup_append] at hnd
      intro hmem
      exact hnd.2.2 hmem (by simp)
    have hgi₁ : ∀ n, lookupA (setA c node 1) n = some 1 ↔ n ∈ stack ++ [node] := by
      intro n
      by_cases hn : n = node
      · subst hn
        rw [lookupA_setA_self]
        simp
      · rw [lookupA_setA_ne c node n 1 (fun he => hn he.symm)]
        rw [hgi n]
        constructor
        · intro h
          exact List.mem_append_left _ h
        · intro h
          rcases List.mem_append.mp h with h | h
          · exact h
          · simp at h
            exact absurd h hn
    rcases foldDeps_sound g (dfsVisit g fuel) ih node (stack ++ [node])
      (edgesOf g node) (setA c node 1) p (fun d hd => hd) hdomc₁ hdomp hgi₁
      hch hpl hnd (List.getLast?_concat stack) hkn with ⟨hfc, hfn⟩
    cases hfres : foldDeps (dfsVisit g fuel) node (edgesOf g node) (setA c node 1) p with
    | none =>
      constructor
      · intro cyc c' p' heq
        rw [dfsVisit_succ, hfres] at heq
        cases heq
      · intro c' p' heq
        rw [dfsVisit_succ, hfres] at heq
        cases heq
    | some st =>
      obtain ⟨cyc?, cE, pE⟩ := st
      cases cyc? with
      | some cyc =>
        constructor
        · intro cyc' c' p' heq
          rw [dfsVisit_succ, hfres] at heq
          simp only [Option.some.injEq, Prod.mk.injEq] at heq
          obtain ⟨hcyc, -, -⟩ := heq
          rw [← hcyc]
          exact hfc cyc cE pE hfres
        · intro c' p' heq
          rw [dfsVisit_succ, hfres] at heq
          simp at heq
      | none =>
        rcases hfn cE pE hfres with ⟨hs1, hs2, hs3, hs4, hs5⟩
        have hkeyE : containsKey cE node = true := by
          have hg : lookupA cE node = some 1 := (hs3 node).mpr (by simp)
          exact containsKey_of_lookupA cE node 1 hg
        constructor
        · intro cyc c' p' heq
          rw [dfsVisit_succ, hfres] at heq
          simp at heq
        · intro c' p' heq
          rw [dfsVisit_succ, hfres] at heq
          simp only [Option.some.injEq, Prod.mk.injEq] at heq
          obtain ⟨-, rfl, rfl⟩ := heq
          refine ⟨?_, hs2, ?_, ?_, ?_⟩
          · rw [keysOf_setA_of_mem cE node 2 hkeyE]
            exact hs1
          · intro n
            by_cases hn : n = node
            · subst hn
              rw [lookupA_setA_self]
              constructor
              · intro h
                cases h
              · intro h
                exact absurd h hnodest
            · rw [lookupA_setA_ne cE node n 2 (fun he => hn he.symm)]
              rw [hs3 n]
              constructor
              · intro h
                rcases List.mem_append.mp h with h | h
                · exact h
                · simp at h
                  exact absurd h hn
              · intro h
                exact List.mem_append_left _ h
          · intro n hnw
            have hnn : n ≠ node := by
              intro he
              subst he
              exact hnw hwhite
            have hnw₁ : lookupA (setA c node 1) n ≠ some 0 := by
              rw [lookupA_setA_ne c node n 1 (fun he => hnn he.symm)]
              exact hnw
            exact hs4 n hnw₁
          · intro n hw
            have hnn : n ≠ node := by
              intro he
              subst he
              rw [lookupA_setA_self] at hw
              cases hw
            rw [lookupA_setA_ne cE node n 2 (fun he => hnn he.symm)] at hw
            have := hs5 n hw
            rw [lookupA_setA_ne c node n 1 (fun he => hnn he.symm)] at this
            exact this

theorem detectLoop_sound (g : Graph) :
    ∀ rest c p, keysOf c = keysOf g → keysOf p = keysOf g →
      (∀ n, lookupA c n ≠ some 1) →
      ∀ cyc, detectLoop g rest c p = some cyc → IsCycleList g cyc := by
  intro rest
  induction rest with
  | nil =>
    intro c p hdomc hdomp hng cyc heq
    cases heq
  | cons n rest ih =>
    intro c p hdomc hdomp hng cyc heq
    rw [detectLoop_cons] at heq
    by_cases hwhite : lookupA c n = some 0
    · rw [if_pos hwhite] at heq
      have hkn : containsKey g n = true := by
        have h := containsKey_of_lookupA c n 0 hwhite
        rw [containsKey, hdomc] at h
        rw [containsKey]
        exact h
      have hgi : ∀ m, lookupA c m = some 1 ↔ m ∈ ([] : List String) := by
        intro m
        simp
        exact hng m
      rcases dfsVisit_sound g (g.length + 1) n c p [] hdomc hdomp hgi
        (by simp [isChainK]) (by simp) (by simp) hwhite hkn with ⟨hvc, hvn⟩
      cases hres : dfsVisit g (g.length + 1) n c p with
      | none =>
        rw [hres] at heq
        cases heq
      | some st =>
        obtain ⟨cyc?, c', p'⟩ := st
        cases cyc? with
        | some cyc' =>
          rw [hres] at heq
          simp at heq
          rw [← heq]
          exact hvc cyc' c' p' hres
        | none =>
          rw [hres] at heq
          rcases hvn c' p' hres with ⟨ht1, ht2, ht3, -, -⟩
          refine ih c' p' ht1 ht2 ?_ cyc heq
          intro m hm
          have := (ht3 m).mp hm
          simp at this
    · rw [if_neg hwhite] at heq
      exact ih c p hdomc hdomp hng cyc heq

/-- Soundness: whatever `detect_cycle` returns is a genuine closed walk
of the key-restricted graph. -/
theorem detect_cycle_some_imp_cycle (g : Graph) (cyc : List String)
    (h : detect_cycle g = some cyc) : IsCycleList g cyc := by
  unfold detect_cycle at h
  refine detectLoop_sound g (keysOf g) _ _ (keysOf_constMap g 0)
    (keysOf_constMap g (none : Option String)) ?_ cyc h
  intro n hv
  rw [lookupA_constMap] at hv
  by_cases hc : containsKey g n = true
  · rw [if_pos hc] at hv
    cases hv
  · rw [if_neg hc] at hv
    cases hv

/-- `detect_cycle` returns nothing exactly on acyclic inputs. -/
theorem detect_cycle_none_iff_acyclic (g : Graph) :
    detect_cycle g = none ↔ Acyclic g := by
  constructor
  · exact detect_cycle_none_imp_acyclic g
  · intro hac
    cases h : detect_cycle g with
    | none => rfl
    | some cyc => exact absurd ⟨cyc, detect_cycle_some_imp_cycle g cyc h⟩ hac

/-! ## Reachability (for the depth computation) -/

/-- Reflexive-transitive reachability along key-restricted edges. -/
inductive ReachK (g : Graph) : String → String → Prop
  | refl (a : String) : ReachK g a a
  | head (a b c : String) : isEdgeK g a b = true → ReachK g b c → ReachK g a c

/-- Reachability with at least one edge. -/
def ReachP (g : Graph) (a b : String) : Prop :=
  ∃ d, isEdgeK g a d = true ∧ ReachK g d b

theorem reachK_trans (g : Graph) (a b c : String) (h₁ : ReachK g a b)
    (h₂ : ReachK g b c) : ReachK g a c := by
  induction h₁ with
  | refl => exact h₂
  | head x y z hxy hyz ih => exact ReachK.head x y c hxy (ih h₂)

theorem reachK_snoc (g : Graph) (a b c : String) (h₁ : ReachK g a b)
    (h₂ : isEdgeK g b c = true) : ReachK g a c :=
  reachK_trans g a b c h₁ (ReachK.head b c c h₂ (ReachK.refl c))

theorem isChainK_cons (g : Graph) (a b : String) (t : List String)
    (hab : isEdgeK g a b = true) (ht : isChainK g (b :: t) = true) :
    isChainK g (a :: b :: t) = true := by
  simp [isChainK, hab, ht]

theorem reachK_chain (g : Graph) (x y : String) (h : ReachK g x y) :
    ∃ l : List String, l.head? = some x ∧ l.getLast? = some y ∧
      isChainK g l = true := by
  induction h with
  | refl a => exact ⟨[a], rfl, rfl, rfl⟩
  | head a b c hab hbc ih =>
    rcases ih with ⟨l, hh, hl, hc⟩
    cases l with
    | nil => cases hh
    | cons b' t =>
      have hb : b' = b := by
        simp at hh
        exact hh
      rw [hb] at hc hl
      refine ⟨a :: b :: t, rfl, ?_, isChainK_cons g a b t hab hc⟩
      rw [List.getLast?_cons_cons]
      exact hl

theorem acyclic_no_self_reachP (g : Graph) (hac : Acyclic g) (a : String) :
    ¬ ReachP g a a := by
  rintro ⟨d, hedge, hreach⟩
  rcases reachK_chain g d a hreach with ⟨l, hh, hl, hc⟩
  cases l with
  | nil => cases hh
  | cons d' t =>
    have hd : d' = d := by
      simp at hh
      exact hh
    rw [hd] at hc hl
    apply hac
    refine ⟨a :: d :: t, ⟨by simp, ?_, isChainK_cons g a d t hedge hc⟩⟩
    rw [List.head?_cons, List.getLast?_cons_cons]
    exact hl.symm

/-! ## `compute_depth` and `compute_phases` -/

/-- The dependencies of `node` that are themselves graph members
(`[d for d in graph.get(node, []) if d in graph]`). -/
def inKeyDeps (g : Graph) (n : String) : List String :=
  (edgesOf g n).filter (fun d => containsKey g d)

/-- `max(get(d) for d in deps)` with the memo table threaded through the
sequential evaluation (values are naturals, so folding from 0 agrees
with Python's `max` on a non-empty list). -/
def maxGetList (get : String → List (String × Nat) → Nat × List (String × Nat)) :
    List String → List (String × Nat) → Nat → Nat × List (String × Nat)
  | [], memo, acc => (acc, memo)
  | d :: rest, memo, acc =>
    match get d memo with
    | (v, memo') => maxGetList get rest memo' (max acc v)

/-- The memoized recursive `get(node)` of `compute_depth`.  The fuel
makes the recursion structural; `compute_depth` passes enough fuel for
every acyclic input (the only inputs on which the Python recursion
terminates at all). -/
def depthGet (g : Graph) : Nat → String → List (String × Nat) → Nat × List (String × Nat)
  | 0, _, memo => (0, memo)
  | fuel + 1, node, memo =>
    match lookupA memo node with
    | some d => (d, memo)
    | none =>
      match inKeyDeps g node with
      | [] => (0, setA memo node 0)
      | _ :: _ =>
        match maxGetList (depthGet g fuel) (inKeyDeps g node) memo 0 with
        | (m, memo') => (m + 1, setA memo' node (m + 1))

/-- `compute_depth(graph)`: dependency depth per ticket. -/
def compute_depth (g : Graph) : List (String × Nat) :=
  (keysOf g).foldl (fun memo n => (depthGet g (g.length + 1) n memo).2) []


/-- A memo table is internally consistent: every entry's in-key
dependencies are memoized and its value satisfies the depth
recurrence. -/
def memoGood (g : Graph) (memo : List (String × Nat)) : Prop :=
  ∀ n d, lookupA memo n = some d →
    containsKey g n = true ∧
    (∀ x ∈ inKeyDeps g n, (lookupA memo x).isSome = true) ∧
    d = (if inKeyDeps g n = [] then 0
         else ((inKeyDeps g n).map (fun x => (lookupA memo x).getD 0)).foldl max 0 + 1)

/-- Number of distinct graph keys not yet memoized. -/
def unmemoCount (g : Graph) (memo : List (String × Nat)) : Nat :=
  ((keysOf g).dedup.filter (fun n => (lookupA memo n).isNone)).length

theorem filter_length_mono {α : Type} (l : List α) (p q : α → Bool)
    (h : ∀ a ∈ l, q a = true → p a = true) :
    (l.filter q).length ≤ (l.filter p).length := by
  induction l with
  | nil => simp
  | cons a t ih =>
    have ht : ∀ x ∈ t, q x = true → p x = true := by
      intro x hx
      exact h x (List.mem_cons_of_mem a hx)
    cases hq : q a with
    | true =>
      have hp : p a = true := h a (by simp) hq
      simp [List.filter, hq, hp]
      exact ih ht
    | false =>
      simp only [List.filter, hq]
      cases hp : p a with
      | true =>
        simp only [List.length_cons]
        exact Nat.le_succ_of_le (ih ht)
      | false => exact ih ht

theorem unmemo_mono (g : Graph) (memo memo' : List (String × Nat))
    (h : ∀ n v, lookupA memo n = some v → lookupA memo' n = some v) :
    unmemoCount g memo' ≤ unmemoCount g memo := by
  apply filter_length_mono
  intro a ha hq
  cases hm : lookupA memo a with
  | none => rfl
  | some v =>
    rw [h a v hm] at hq
    cases hq

theorem S_le_unmemo (g : Graph) (memo : List (String × Nat)) (S : List String)
    (hnd : S.Nodup) (hk : ∀ s ∈ S, s ∈ keysOf g)
    (hnone : ∀ s ∈ S, lookupA memo s = none) :
    S.length ≤ unmemoCount g memo := by
  apply nodup_length_le S _ hnd
  intro s hs
  rw [List.mem_filter]
  constructor
  · exact List.mem_dedup.mpr (hk s hs)
  · rw [hnone s hs]
    rfl

theorem nodup_setA_fresh {α : Type} (memo : List (String × α)) (n : String)
    (v : α) (h : lookupA memo n = none) (hnd : (keysOf memo).Nodup) :
    (keysOf (setA memo n v)).Nodup := by
  have hck : containsKey memo n = false := by
    cases hc : containsKey memo n
    · rfl
    · rcases lookupA_isSome_of_containsKey memo n hc with ⟨w, hw⟩
      rw [hw] at h
      cases h
  rw [keysOf_setA_of_not_mem memo n v hck]
  rw [List.nodup_append]
  refine ⟨hnd, List.nodup_singleton n, ?_⟩
  intro a ha hb
  simp at hb
  rw [hb] at ha
  have hm : containsKey memo n = true := by
    rw [containsKey]
    exact List.elem_iff.mpr ha
  rw [hm] at hck
  cases hck

/-- Correctness contract of the memoized depth getter at one fuel
level. -/
def DepthContract (g : Graph)
    (get : String → List (String × Nat) → Nat × List (String × Nat))
    (fuel : Nat) : Prop :=
  ∀ (node : String) (memo : List (String × Nat)) (S : List String),
    memoGood g memo → containsKey g node = true → S.Nodup →
    (∀ s ∈ S, lookupA memo s = none) → (∀ s ∈ S, ReachP g s node) →
    unmemoCount g memo < fuel + S.length →
    (∀ n v, lookupA memo n = some v → lookupA (get node memo).2 n = some v) ∧
    memoGood g (get node memo).2 ∧
    lookupA (get node memo).2 node = some (get node memo).1 ∧
    (∀ s ∈ S, lookupA (get node memo).2 s = none) ∧
    (∀ n, lookupA memo n = none → (lookupA (get node memo).2 n).isSome = true →
      ReachK g node n) ∧
    ((keysOf memo).Nodup → (keysOf (get node memo).2).Nodup)

theorem maxGetList_cons
    (get : String → List (String × Nat) → Nat × List (String × Nat))
    (d : String) (rest : List String) (memo : List (String × Nat)) (acc : Nat) :
    maxGetList get (d :: rest) memo acc =
      maxGetList get rest (get d memo).2 (max acc (get d memo).1) := rfl

theorem maxGetList_spec (g : Graph) (hac : Acyclic g)
    (get : String → List (String × Nat) → Nat × List (String × Nat)) (fuel : Nat)
    (hget : DepthContract g get fuel) (node : String) (S : List String)
    (hreach : ∀ s ∈ S, ReachP g s node)
    (hndS : (S ++ [node]).Nodup) :
    ∀ deps memo acc, memoGood g memo →
      (∀ d ∈ deps, isEdgeK g node d = true) →
      (∀ s ∈ S ++ [node], lookupA memo s = none) →
      unmemoCount g memo < fuel + (S ++ [node]).length →
      (∀ n v, lookupA memo n = some v →
        lookupA (maxGetList get deps memo acc).2 n = some v) ∧
      memoGood g (maxGetList get deps memo acc).2 ∧
      (∀ s ∈ S ++ [node], lookupA (maxGetList get deps memo acc).2 s = none) ∧
      (∀ n, lookupA memo n = none →
        (lookupA (maxGetList get deps memo acc).2 n).isSome = true →
        ∃ d ∈ deps, ReachK g d n) ∧
      (∀ d ∈ deps, (lookupA (maxGetList get deps memo acc).2 d).isSome = true) ∧
      (maxGetList get deps memo acc).1 =
        (deps.map (fun d => (lookupA (maxGetList get deps memo acc).2 d).getD 0)).foldl
          max acc ∧
      ((keysOf memo).Nodup → (keysOf (maxGetList get deps memo acc).2).Nodup) := by
  intro deps
  induction deps with
  | nil =>
    intro memo acc hmemo hde hnone hcount
    refine ⟨fun n v h => h, hmemo, hnone, ?_, ?_, ?_, ?_⟩
    · intro n h1 h2
      rw [show (maxGetList get [] memo acc).2 = memo from rfl, h1] at h2
      cases h2
    · simp
    · simp [maxGetList]
    · exact fun h => h
  | cons d rest ih =>
    intro memo acc hmemo hde hnone hcount
    have hedged : isEdgeK g node d = true := hde d (by simp)
    have hkd : containsKey g d = true := by
      simp only [isEdgeK, Bool.and_eq_true] at hedged
      exact hedged.1.2
    have hreachInner : ∀ s ∈ S ++ [node], ReachP g s d := by
      intro s hs
      rcases List.mem_append.mp hs with hs | hs
      · rcases hreach s hs with ⟨e, hse, her⟩
        exact ⟨e, hse, reachK_snoc g e node d her hedged⟩
      · simp at hs
        rw [hs]
        exact ⟨d, hedged, ReachK.refl d⟩
    rcases hget d memo (S ++ [node]) hmemo hkd hndS hnone hreachInner hcount with
      ⟨c1, c2, c3, c4, c5, c6⟩
    rw [maxGetList_cons]
    have hcount₂ : unmemoCount g (get d memo).2 < fuel + (S ++ [node]).length :=
      lt_of_le_of_lt (unmemo_mono g memo (get d memo).2 c1) hcount
    rcases ih (get d memo).2 (max acc (get d memo).1) c2
      (fun x hx => hde x (List.mem_cons_of_mem d hx)) c4 hcount₂ with
      ⟨t1, t2, t3, t4, t5, t6, t7⟩
    refine ⟨fun n v h => t1 n v (c1 n v h), t2, t3, ?_, ?_, ?_, fun h => t7 (c6 h)⟩
    · intro n h1 h2
      cases hmid : lookupA (get d memo).2 n with
      | some w =>
        have := c5 n h1 (by rw [hmid]; rfl)
        exact ⟨d, by simp, this⟩
      | none =>
        rcases t4 n hmid h2 with ⟨d', hd', hr⟩
        exact ⟨d', List.mem_cons_of_mem d hd', hr⟩
    · intro x hx
      rcases List.mem_cons.mp hx with hx | hx
      · subst hx
        have := t1 x (get x memo).1 c3
        rw [this]
        rfl
      · exact t5 x hx
    · rw [t6]
      simp only [List.map_cons, List.foldl_cons]
      have hdl : lookupA (maxGetList get rest (get d memo).2 (max acc (get d memo).1)).2 d
          = some (get d memo).1 := t1 d (get d memo).1 c3
      rw [hdl]
      rfl

theorem depthGet_succ_hit (g : Graph) (fuel : Nat) (node : String)
    (memo : List (String × Nat)) (d : Nat) (h : lookupA memo node = some d) :
    depthGet g (fuel + 1) node memo = (d, memo) := by
  simp [depthGet, h]

theorem depthGet_succ_leaf (g : Graph) (fuel : Nat) (node : String)
    (memo : List (String × Nat)) (h1 : lookupA memo node = none)
    (h2 : inKeyDeps g node = []) :
    depthGet g (fuel + 1) node memo = (0, setA memo node 0) := by
  simp [depthGet, h1, h2]

theorem depthGet_succ_rec (g : Graph) (fuel : Nat) (node : String)
    (memo : List (String × Nat)) (d0 : String) (rest0 : List String)
    (h1 : lookupA memo node = none) (h2 : inKeyDeps g node = d0 :: rest0) :
    depthGet g (fuel + 1) node memo =
      ((maxGetList (depthGet g fuel) (inKeyDeps g node) memo 0).1 + 1,
       setA (maxGetList (depthGet g fuel) (inKeyDeps g node) memo 0).2 node
         ((maxGetList (depthGet g fuel) (inKeyDeps g node) memo 0).1 + 1)) := by
  simp [depthGet, h1, h2]

theorem depthGet_contract (g : Graph) (hac : Acyclic g) :
    ∀ fuel, DepthContract g (depthGet g fuel) fuel := by
  intro fuel
  induction fuel with
  | zero =>
    intro node memo S hmemo hkn hnd hnone hreach hcount
    exfalso
    have hSk : ∀ s ∈ S, s ∈ keysOf g := by
      intro s hs
      rcases hreach s hs with ⟨e, hse, -⟩
      simp only [isEdgeK, Bool.and_eq_true] at hse
      have := hse.1.1
      rw [containsKey] at this
      exact List.elem_iff.mp this
    have := S_le_unmemo g memo S hnd hSk hnone
    omega
  | succ fuel ih =>
    intro node memo S hmemo hkn hnd hnone hreach hcount
    cases hlk : lookupA memo node with
    | some d =>
      rw [depthGet_succ_hit g fuel node memo d hlk]
      refine ⟨fun n v h => h, hmemo, hlk, hnone, ?_, fun h => h⟩
      intro n h1 h2
      rw [h1] at h2
      cases h2
    | none =>
      have hnodeS : node ∉ S := by
        intro hmem
        exact acyclic_no_self_reachP g hac node (hreach node hmem)
      cases hdeps : inKeyDeps g node with
      | nil =>
        rw [depthGet_succ_leaf g fuel node memo hlk hdeps]
        have hmono : ∀ n v, lookupA memo n = some v →
            lookupA (setA memo node 0) n = some v := by
          intro n v h
          have hnn : n ≠ node := by
            intro he
            rw [he, hlk] at h
            cases h
          rw [lookupA_setA_ne memo node n 0 (fun he => hnn he.symm)]
          exact h
        refine ⟨hmono, ?_, by rw [lookupA_setA_self], ?_, ?_,
          fun h => nodup_setA_fresh memo node 0 hlk h⟩
        · intro n d' hstate
          by_cases hnn : n = node
          · rw [hnn] at hstate ⊢
            rw [lookupA_setA_self] at hstate
            injection hstate with hd'
            refine ⟨hkn, ?_, ?_⟩
            · rw [hdeps]
              simp
            · rw [hdeps]
              simp [hd'.symm]
          · rw [lookupA_setA_ne memo node n 0 (fun he => hnn he.symm)] at hstate
            rcases hmemo n d' hstate with ⟨hk, hcl, hval⟩
            have hxnn : ∀ x ∈ inKeyDeps g n, x ≠ node := by
              intro x hx he
              have := hcl x hx
              rw [he, hlk] at this
              cases this
            refine ⟨hk, ?_, ?_⟩
            · intro x hx
              rw [lookupA_setA_ne memo node x 0 (fun he => (hxnn x hx) he.symm)]
              exact hcl x hx
            · rw [hval]
              by_cases hnil : inKeyDeps g n = []
              · simp [hnil]
              · rw [if_neg hnil, if_neg hnil]
                have hmapeq : List.map (fun x => (lookupA (setA memo node 0) x).getD 0)
                    (inKeyDeps g n)
                    = List.map (fun x => (lookupA memo x).getD 0) (inKeyDeps g n) := by
                  apply List.map_congr_left
                  intro x hx
                  rw [lookupA_setA_ne memo node x 0 (fun he => (hxnn x hx) he.symm)]
                rw [hmapeq]
        · intro s hs
          have hsn : s ≠ node := fun he => hnodeS (he ▸ hs)
          rw [lookupA_setA_ne memo node s 0 (fun he => hsn he.symm)]
          exact hnone s hs
        · intro n h1 h2
          by_cases hnn : n = node
          · rw [hnn]
            exact ReachK.refl node
          · rw [lookupA_setA_ne memo node n 0 (fun he => hnn he.symm), h1] at h2
            cases h2
      | cons d0 rest0 =>
        have hndS : (S ++ [node]).Nodup := by
          rw [List.nodup_append]
          refine ⟨hnd, List.nodup_singleton node, ?_⟩
          intro a ha hb
          simp at hb
          rw [hb] at ha
          exact hnodeS ha
        have hnoneS' : ∀ s ∈ S ++ [node], lookupA memo s = none := by
          intro s hs
          rcases List.mem_append.mp hs with hs | hs
          · exact hnone s hs
          · simp at hs
            rw [hs]
            exact hlk
        have hcount' : unmemoCount g memo < fuel + (S ++ [node]).length := by
          simp only [List.length_append, List.length_singleton]
          omega
        have hedges : ∀ d ∈ inKeyDeps g node, isEdgeK g node d = true := by
          intro d hd
          rw [inKeyDeps, List.mem_filter] at hd
          simp only [isEdgeK, Bool.and_eq_true]
          exact ⟨⟨hkn, hd.2⟩, List.elem_iff.mpr hd.1⟩
        have hxnode : ∀ x ∈ inKeyDeps g node, x ≠ node := by
          intro x hx he
          apply acyclic_no_self_reachP g hac node
          refine ⟨x, hedges x hx, ?_⟩
          rw [he]
          exact ReachK.refl node
        rcases maxGetList_spec g hac (depthGet g fuel) fuel ih node S hreach hndS
          (inKeyDeps g node) memo 0 hmemo hedges hnoneS' hcount' with
          ⟨m1, m2, m3, m4, m5, m6, m7⟩
        rw [depthGet_succ_rec g fuel node memo d0 rest0 hlk hdeps]
        have hMnone : lookupA (maxGetList (depthGet g fuel) (inKeyDeps g node) memo 0).2
            node = none := m3 node (by simp)
        have hmono : ∀ n v, lookupA memo n = some v →
            lookupA (setA (maxGetList (depthGet g fuel) (inKeyDeps g node) memo 0).2 node
              ((maxGetList (depthGet g fuel) (inKeyDeps g node) memo 0).1 + 1)) n
              = some v := by
          intro n v h
          have hnn : n ≠ node := by
            intro he
            rw [he, hlk] at h
            cases h
          rw [lookupA_setA_ne _ node n _ (fun he => hnn he.symm)]
          exact m1 n v h
        refine ⟨hmono, ?_, by rw [lookupA_setA_self], ?_, ?_,
          fun h => nodup_setA_fresh _ node _ hMnone (m7 h)⟩
        · intro n d' hstate
          by_cases hnn : n = node
          · rw [hnn] at hstate ⊢
            rw [lookupA_setA_self] at hstate
            injection hstate with hd'
            refine ⟨hkn, ?_, ?_⟩
            · intro x hx
              have := m5 x hx
              cases hMx : lookupA (maxGetList (depthGet g fuel) (inKeyDeps g node)
                  memo 0).2 x with
              | none => rw [hMx] at this; cases this
              | some w =>
                rw [lookupA_setA_ne _ node x _ (fun he => (hxnode x hx) he.symm)]
                rw [hMx]
                rfl
            · rw [if_neg (by rw [hdeps]; simp)]
              rw [← hd']
              have hmapeq : List.map (fun x =>
                  (lookupA (setA (maxGetList (depthGet g fuel) (inKeyDeps g node) memo
                    0).2 node ((maxGetList (depthGet g fuel) (inKeyDeps g node) memo
                    0).1 + 1)) x).getD 0) (inKeyDeps g node)
                  = List.map (fun x => (lookupA (maxGetList (depthGet g fuel)
                    (inKeyDeps g node) memo 0).2 x).getD 0) (inKeyDeps g node) := by
                apply List.map_congr_left
                intro x hx
                rw [lookupA_setA_ne _ node x _ (fun he => (hxnode x hx) he.symm)]
              rw [hmapeq, ← m6]
          · rw [lookupA_setA_ne _ node n _ (fun he => hnn he.symm)] at hstate
            rcases m2 n d' hstate with ⟨hk, hcl, hval⟩
            have hxnn : ∀ x ∈ inKeyDeps g n, x ≠ node := by
              intro x hx he
              have := hcl x hx
              rw [he, hMnone] at this
              cases this
            refine ⟨hk, ?_, ?_⟩
            · intro x hx
              rw [lookupA_setA_ne _ node x _ (fun he => (hxnn x hx) he.symm)]
              exact hcl x hx
            · rw [hval]
              by_cases hnil : inKeyDeps g n = []
              · simp [hnil]
              · rw [if_neg hnil, if_neg hnil]
                have hmapeq : List.map (fun x =>
                    (lookupA (setA (maxGetList (depthGet g fuel) (inKeyDeps g node) memo
                      0).2 node ((maxGetList (depthGet g fuel) (inKeyDeps g node) memo
                      0).1 + 1)) x).getD 0) (inKeyDeps g n)
                    = List.map (fun x => (lookupA (maxGetList (depthGet g fuel)
                      (inKeyDeps g node) memo 0).2 x).getD 0) (inKeyDeps g n) := by
                  apply List.map_congr_left
                  intro x hx
                  rw [lookupA_setA_ne _ node x _ (fun he => (hxnn x hx) he.symm)]
                rw [hmapeq]
        · intro s hs
          have hsn : s ≠ node := fun he => hnodeS (he ▸ hs)
          rw [lookupA_setA_ne _ node s _ (fun he => hsn he.symm)]
          exact m3 s (List.mem_append_left _ hs)
        · intro n h1 h2
          by_cases hnn : n = node
          · rw [hnn]
            exact ReachK.refl node
          · rw [lookupA_setA_ne _ node n _ (fun he => hnn he.symm)] at h2
            rcases m4 n h1 h2 with ⟨d, hd, hr⟩
            exact ReachK.head node d n (hedges d hd) hr

theorem unmemo_lt_fuel (g : Graph) (memo : List (String × Nat)) :
    unmemoCount g memo < g.length + 1 := by
  have h1 : unmemoCount g memo ≤ (keysOf g).dedup.length :=
    List.length_filter_le _ _
  have h2 : (keysOf g).dedup.length ≤ (keysOf g).length :=
    (List.dedup_sublist (keysOf g)).length_le
  have h3 : (keysOf g).length = g.length := by simp [keysOf]
  omega

theorem compute_depth_fold (g : Graph) (hac : Acyclic g) :
    ∀ (ks : List String) (memo : List (String × Nat)),
      memoGood g memo → (∀ k ∈ ks, containsKey g k = true) →
      memoGood g (ks.foldl (fun m n => (depthGet g (g.length + 1) n m).2) memo) ∧
      (∀ n v, lookupA memo n = some v →
        lookupA (ks.foldl (fun m n => (depthGet g (g.length + 1) n m).2) memo) n
          = some v) ∧
      (∀ k ∈ ks, (lookupA
        (ks.foldl (fun m n => (depthGet g (g.length + 1) n m).2) memo) k).isSome
        = true) ∧
      ((keysOf memo).Nodup →
        (keysOf (ks.foldl (fun m n => (depthGet g (g.length + 1) n m).2) memo)).Nodup)
      := by
  intro ks
  induction ks with
  | nil =>
    intro memo hmemo hk
    exact ⟨hmemo, fun n v h => h, by simp, fun h => h⟩
  | cons k ks ih =>
    intro memo hmemo hk
    simp only [List.foldl_cons]
    have hkk : containsKey g k = true := hk k (by simp)
    rcases depthGet_contract g hac (g.length + 1) k memo [] hmemo hkk
      List.nodup_nil (by simp) (by simp) (by
        simpa using unmemo_lt_fuel g memo) with ⟨c1, c2, c3, -, -, c6⟩
    rcases ih (depthGet g (g.length + 1) k memo).2 c2
      (fun x hx => hk x (List.mem_cons_of_mem k hx)) with ⟨t1, t2, t3, t4⟩
    refine ⟨t1, ?_, ?_, fun h => t4 (c6 h)⟩
    · intro n v h
      exact t2 n v (c1 n v h)
    · intro x hx
      rcases List.mem_cons.mp hx with hx | hx
    
      · rw [hx]
        have := t2 k (depthGet g (g.length + 1) k memo).1 c3
        rw [this]
        rfl
      · exact t3 x hx

/-- `compute_depth` is internally consistent and covers every key. -/
theorem compute_depth_spec (g : Graph) (hac : Acyclic g) :
    memoGood g (compute_depth g) ∧
    (∀ n, containsKey g n = true → (lookupA (compute_depth g) n).isSome = true) ∧
    (keysOf (compute_depth g)).Nodup := by
  have hkeys : ∀ k ∈ keysOf g, containsKey g k = true := by
    intro k hkk
    rw [containsKey]
    exact List.elem_iff.mpr hkk
  have hempty : memoGood g ([] : List (String × Nat)) := by
    intro n d h
    cases h
  rcases compute_depth_fold g hac (keysOf g) [] hempty hkeys with ⟨h1, -, h3, h4⟩
  refine ⟨h1, ?_, h4 (by simp [keysOf])⟩
  intro n hn
  apply h3
  rw [containsKey] at hn
  exact List.elem_iff.mp hn

/-- The depth recurrence: on an acyclic graph, every key gets a depth;
a node with no in-graph dependency has depth 0, otherwise depth is
1 + the maximum of the depths of its in-graph dependencies. -/
theorem compute_depth_recurrence (g : Graph) (hac : Acyclic g) (n : String)
    (hn : containsKey g n = true) :
    ∃ d, lookupA (compute_depth g) n = some d ∧
      d = (if inKeyDeps g n = [] then 0
           else ((inKeyDeps g n).map
             (fun x => (lookupA (compute_depth g) x).getD 0)).foldl max 0 + 1) := by
  rcases compute_depth_spec g hac with ⟨hgood, hall, -⟩
  have := hall n hn
  cases hd : lookupA (compute_depth g) n with
  | none => rw [hd] at this; cases this
  | some d =>
    rcases hgood n d hd with ⟨-, -, hval⟩
    exact ⟨d, rfl, hval⟩

/-! ## `compute_phases` -/

/-- Lookup in a `Nat`-keyed association list (the `phases` defaultdict). -/
def lookupN : List (Nat × List String) → Nat → Option (List String)
  | [], _ => none
  | (k, v) :: rest, d => if k = d then some v else lookupN rest d

/-- `phases[d].append(ticket)` on a `defaultdict(list)`: append to the
entry in place, or create it at the end in insertion order. -/
def addPhase : List (Nat × List String) → Nat → String → List (Nat × List String)
  | [], d, t => [(d, [t])]
  | (k, v) :: rest, d, t =>
    if k = d then (k, v ++ [t]) :: rest else (k, v) :: addPhase rest d t

/-- The grouping loop of `compute_phases`. -/
def phaseGroups (g : Graph) : List (Nat × List String) :=
  (compute_depth g).foldl (fun acc x => addPhase acc x.2 x.1) []

/-- Python `sorted` on identifier lists (code-point lexicographic). -/
def sortStrings (l : List String) : List String := sortLe strLe l

/-- `compute_phases(graph)`: `{str(k + 1): sorted(v) for k, v in
sorted(phases.items())}`. -/
def compute_phases (g : Graph) : List (String × List String) :=
  (sortLe (fun a b => decide (a.1 ≤ b.1)) (phaseGroups g)).map
    (fun x => (toString (x.1 + 1), sortStrings x.2))


theorem lookupN_addPhase_self (acc : List (Nat × List String)) (d : Nat)
    (t : String) :
    lookupN (addPhase acc d t) d = some ((lookupN acc d).getD [] ++ [t]) := by
  induction acc with
  | nil => simp [addPhase, lookupN]
  | cons hd rest ih =>
    obtain ⟨k, v⟩ := hd
    by_cases hk : k = d
    · simp [addPhase, hk, lookupN]
    · simp [addPhase, hk, lookupN, ih]

theorem lookupN_addPhase_ne (acc : List (Nat × List String)) (d : Nat)
    (t : String) (k : Nat) (h : k ≠ d) :
    lookupN (addPhase acc d t) k = lookupN acc k := by
  induction acc with
  | nil =>
    simp only [addPhase, lookupN]
    rw [if_neg (fun he : d = k => h he.symm)]
  | cons hd rest ih =>
    obtain ⟨k₀, v₀⟩ := hd
    by_cases hk : k₀ = d
    · simp only [addPhase, if_pos hk, lookupN]
      have hne : ¬ k₀ = k := fun he => h (he.symm.trans hk)
      rw [if_neg hne, if_neg hne]
    · simp only [addPhase, if_neg hk, lookupN]
      by_cases hkk : k₀ = k
      · rw [if_pos hkk, if_pos hkk]
      · rw [if_neg hkk, if_neg hkk]
        exact ih

theorem groups_fold_getD (dl : List (String × Nat)) :
    ∀ (acc : List (Nat × List String)) (k : Nat),
      ((lookupN (dl.foldl (fun a x => addPhase a x.2 x.1) acc) k).getD []) =
        (lookupN acc k).getD [] ++ (dl.filter (fun x => x.2 == k)).map Prod.fst := by
  induction dl with
  | nil => intro acc k; simp
  | cons hd rest ih =>
    intro acc k
    obtain ⟨n, d⟩ := hd
    simp only [List.foldl_cons]
    by_cases hk : d = k
    · subst hk
      rw [ih (addPhase acc d n) d]
      rw [lookupN_addPhase_self]
      simp [List.filter]
    · rw [ih (addPhase acc d n) k]
      rw [lookupN_addPhase_ne acc d n k (fun he => hk he.symm)]
      have hstep : ((n, d) :: rest).filter (fun x => x.2 == k)
          = rest.filter (fun x => x.2 == k) := by
        have hbe : (d == k) = false := by simp [hk]
        simp [List.filter, hbe]
      rw [hstep]

theorem groups_fold_isSome (dl : List (String × Nat)) :
    ∀ (acc : List (Nat × List String)) (k : Nat),
      (lookupN (dl.foldl (fun a x => addPhase a x.2 x.1) acc) k).isSome = true ↔
        (lookupN acc k).isSome = true ∨ k ∈ dl.map Prod.snd := by
  induction dl with
  | nil => intro acc k; simp
  | cons hd rest ih =>
    intro acc k
    obtain ⟨n, d⟩ := hd
    simp only [List.foldl_cons]
    rw [ih (addPhase acc d n) k]
    by_cases hk : d = k
    · subst hk
      rw [lookupN_addPhase_self]
      simp
    · rw [lookupN_addPhase_ne acc d n k (fun he => hk he.symm)]
      simp
      constructor
      · intro h
        rcases h with h | h
        · exact Or.inl h
        · exact Or.inr (Or.inr h)
      · intro h
        rcases h with h | h | h
        · exact Or.inl h
        · exact absurd h.symm hk
        · exact Or.inr h

theorem mem_keys_addPhase (acc : List (Nat × List String)) (d : Nat) (t : String)
    (x : Nat) :
    x ∈ (addPhase acc d t).map Prod.fst ↔ x ∈ acc.map Prod.fst ∨ x = d := by
  induction acc with
  | nil => simp [addPhase]
  | cons hd rest ih =>
    obtain ⟨k, v⟩ := hd
    by_cases hk : k = d
    · simp [addPhase, hk]
      tauto
    · simp [addPhase, hk, ih]
      tauto

theorem nodup_addPhase (acc : List (Nat × List String)) (d : Nat) (t : String)
    (h : (acc.map Prod.fst).Nodup) : ((addPhase acc d t).map Prod.fst).Nodup := by
  induction acc with
  | nil => simp [addPhase]
  | cons hd rest ih =>
    obtain ⟨k, v⟩ := hd
    rw [List.map_cons, List.nodup_cons] at h
    by_cases hk : k = d
    · simp only [addPhase, if_pos hk, List.map_cons, List.nodup_cons]
      exact h
    · simp only [addPhase, if_neg hk, List.map_cons, List.nodup_cons]
      refine ⟨?_, ih h.2⟩
      rw [mem_keys_addPhase]
      rintro (hm | hm)
      · exact h.1 hm
      · exact hk hm

theorem nodup_phaseGroups_aux (dl : List (String × Nat)) :
    ∀ acc : List (Nat × List String), (acc.map Prod.fst).Nodup →
      ((dl.foldl (fun a x => addPhase a x.2 x.1) acc).map Prod.fst).Nodup := by
  induction dl with
  | nil => intro acc h; exact h
  | cons hd rest ih =>
    intro acc h
    simp only [List.foldl_cons]
    exact ih (addPhase acc hd.2 hd.1) (nodup_addPhase acc hd.2 hd.1 h)

theorem nodup_phaseGroups (g : Graph) : ((phaseGroups g).map Prod.fst).Nodup :=
  nodup_phaseGroups_aux (compute_depth g) [] (by simp)

theorem lookupN_of_mem_nodup (l : List (Nat × List String)) (k : Nat)
    (v : List String) (hnd : (l.map Prod.fst).Nodup) (hm : (k, v) ∈ l) :
    lookupN l k = some v := by
  induction l with
  | nil => simp at hm
  | cons hd rest ih =>
    obtain ⟨k₀, v₀⟩ := hd
    rw [List.map_cons, List.nodup_cons] at hnd
    rcases List.mem_cons.mp hm with hm | hm
    · injection hm with h1 h2
      simp [lookupN, h1.symm, h2]
    · have hk : k₀ ≠ k := by
        intro he
        apply hnd.1
        rw [he]
        exact List.mem_map.mpr ⟨(k, v), hm, rfl⟩
      simp only [lookupN, if_neg hk]
      exact ih hnd.2 hm

theorem mem_of_lookupN (l : List (Nat × List String)) (k : Nat) (v : List String)
    (h : lookupN l k = some v) : (k, v) ∈ l := by
  induction l with
  | nil => cases h
  | cons hd rest ih =>
    obtain ⟨k₀, v₀⟩ := hd
    by_cases hk : k₀ = k
    · rw [lookupN, if_pos hk] at h
      injection h with h
      rw [← hk, ← h]
      simp
    · rw [lookupN, if_neg hk] at h
      exact List.mem_cons_of_mem _ (ih h)

theorem lookupA_of_mem_nodup {α : Type} (l : List (String × α)) (k : String)
    (v : α) (hnd : (keysOf l).Nodup) (hm : (k, v) ∈ l) :
    lookupA l k = some v := by
  induction l with
  | nil => simp at hm
  | cons hd rest ih =>
    obtain ⟨k₀, v₀⟩ := hd
    rw [keysOf, List.map_cons, List.nodup_cons] at hnd
    rcases List.mem_cons.mp hm with hm | hm
    · injection hm with h1 h2
      simp [lookupA, h1.symm, h2]
    · have hk : k₀ ≠ k := by
        intro he
        apply hnd.1
        rw [he]
        exact List.mem_map.mpr ⟨(k, v), hm, rfl⟩
      simp only [lookupA, if_neg hk]
      exact ih hnd.2 hm

theorem mem_of_lookupA {α : Type} (l : List (String × α)) (k : String) (v : α)
    (h : lookupA l k = some v) : (k, v) ∈ l := by
  induction l with
  | nil => cases h
  | cons hd rest ih =>
    obtain ⟨k₀, v₀⟩ := hd
    by_cases hk : k₀ = k
    · rw [lookupA, if_pos hk] at h
      injection h with h
      rw [← hk, ← h]
      simp
    · rw [lookupA, if_neg hk] at h
      exact List.mem_cons_of_mem _ (ih h)

/-- Characterisation of `compute_phases` on acyclic graphs: each entry
holds exactly the identifiers of one depth, sorted lexicographically;
every node appears under phase `depth + 1`; the phase keys are produced
in ascending numeric order. -/
theorem compute_phases_spec (g : Graph) (hac : Acyclic g) :
    (∀ ph l, (ph, l) ∈ compute_phases g →
       l ≠ [] ∧ List.Pairwise (fun a b => strLe a b = true) l ∧
       ∃ d : Nat, ph = toString (d + 1) ∧
         ∀ t ∈ l, lookupA (compute_depth g) t = some d) ∧
    (∀ n d, lookupA (compute_depth g) n = some d →
       ∃ l, (toString (d + 1), l) ∈ compute_phases g ∧ n ∈ l) ∧
    (∃ ds : List Nat, List.Pairwise (· < ·) ds ∧
       (compute_phases g).map Prod.fst = ds.map (fun d => toString (d + 1))) := by
  rcases compute_depth_spec g hac with ⟨-, -, hdlnd⟩
  have hGgetD : ∀ k : Nat, (lookupN (phaseGroups g) k).getD [] =
      ((compute_depth g).filter (fun x => x.2 == k)).map Prod.fst := by
    intro k
    have := groups_fold_getD (compute_depth g) [] k
    simpa [lookupN] using this
  have hGsome : ∀ k : Nat, (lookupN (phaseGroups g) k).isSome = true ↔
      k ∈ (compute_depth g).map Prod.snd := by
    intro k
    have := groups_fold_isSome (compute_depth g) [] k
    simpa [lookupN] using this
  have hSGperm : (sortLe (fun a b => decide (a.1 ≤ b.1)) (phaseGroups g)).Perm
      (phaseGroups g) := perm_sortLe _ _
  have hSGnd : ((sortLe (fun a b => decide (a.1 ≤ b.1)) (phaseGroups g)).map
      Prod.fst).Nodup := by
    have hp := hSGperm.map Prod.fst
    exact hp.nodup_iff.mpr (nodup_phaseGroups g)
  refine ⟨?_, ?_, ?_⟩
  · intro ph l hmem
    rw [compute_phases, List.mem_map] at hmem
    rcases hmem with ⟨⟨k, v⟩, hkv, heq⟩
    injection heq with hph hl
    have hkvG : (k, v) ∈ phaseGroups g := (mem_sortLe _ _ _).mp hkv
    have hlk : lookupN (phaseGroups g) k = some v :=
      lookupN_of_mem_nodup _ k v (nodup_phaseGroups g) hkvG
    have hv : v = ((compute_depth g).filter (fun x => x.2 == k)).map Prod.fst := by
      have := hGgetD k
      rw [hlk] at this
      exact this
    refine ⟨?_, ?_, k, hph.symm, ?_⟩
    · intro hnil
      have hsome : (lookupN (phaseGroups g) k).isSome = true := by
        rw [hlk]; rfl
      rcases List.mem_map.mp ((hGsome k).mp hsome) with ⟨⟨n, d⟩, hnd, hd⟩
      have hnv : n ∈ v := by
        rw [hv, List.mem_map]
        refine ⟨(n, d), ?_, rfl⟩
        rw [List.mem_filter]
        refine ⟨hnd, ?_⟩
        simp only [beq_iff_eq]
        exact hd
      rw [← hl] at hnil
      have : n ∈ sortStrings v := (mem_sortLe _ _ _).mpr hnv
      rw [hnil] at this
      simp at this
    · rw [← hl]
      exact sorted_sortLe strLe strLe_total strLe_trans v
    · intro t ht
      rw [← hl] at ht
      have htv : t ∈ v := (mem_sortLe _ _ _).mp ht
      rw [hv, List.mem_map] at htv
      rcases htv with ⟨⟨n, d⟩, hnd, hn⟩
      rw [List.mem_filter] at hnd
      have hd : d = k := by
        have := hnd.2
        simp at this
        exact this
      rw [← hn, ← hd]
      exact lookupA_of_mem_nodup _ n d hdlnd hnd.1
  · intro n d hlk
    have hnd : (n, d) ∈ compute_depth g := mem_of_lookupA _ n d hlk
    have hsome : (lookupN (phaseGroups g) d).isSome = true := by
      rw [hGsome d, List.mem_map]
      exact ⟨(n, d), hnd, rfl⟩
    cases hv : lookupN (phaseGroups g) d with
    | none => rw [hv] at hsome; cases hsome
    | some v =>
      have hnv : n ∈ v := by
        have := hGgetD d
        rw [hv] at this
        simp only [Option.getD_some] at this
        rw [this, List.mem_map]
        refine ⟨(n, d), ?_, rfl⟩
        rw [List.mem_filter]
        exact ⟨hnd, by simp⟩
      refine ⟨sortStrings v, ?_, (mem_sortLe _ _ _).mpr hnv⟩
      rw [compute_phases, List.mem_map]
      exact ⟨(d, v), (mem_sortLe _ _ _).mpr (mem_of_lookupN _ d v hv), rfl⟩
  · refine ⟨(sortLe (fun a b => decide (a.1 ≤ b.1)) (phaseGroups g)).map Prod.fst,
      ?_, ?_⟩
    · have hsorted := sorted_sortLe (fun (a b : Nat × List String) =>
        decide (a.1 ≤ b.1))
        (fun x y => by
          rcases Nat.le_total x.1 y.1 with h | h
          · exact Or.inl (by simp [h])
          · exact Or.inr (by simp [h]))
        (fun x y z hxy hyz => by
          simp at hxy hyz ⊢
          omega)
        (phaseGroups g)
      rw [List.pairwise_map]
      have hcomb := hsorted.and (List.Pairwise.imp (fun hne => hne)
        (List.pairwise_map.mp hSGnd))
      apply hcomb.imp
      intro a b hab
      obtain ⟨h1, h2⟩ := hab
      simp at h1
      exact lt_of_le_of_ne h1 (by
        intro he
        exact h2 (by rw [he]))
    · rw [compute_phases, List.map_map, List.map_map]
      rfl

/-! ## Data model: tickets and the persisted snapshot -/

/-- One ticket record as stored in `status.json` (the fields written by
`cmd_create`). -/
structure Ticket where
  summary : String
  area : String
  workstream : String
  phase : Nat
  depth : Nat
  status : String
  priority : String
  blocked_by : List String
  blocks : List String
  plan_status : String
  build_status : String
  pr_number : Option Nat
  pr_status : Option String
  retry_count : Nat
deriving DecidableEq, Repr

/-- The persisted document (`status.json`). -/
structure Snapshot where
  version : String
  created : String
  project : String
  workstreams : List (String × String)
  tickets : List (String × Ticket)
  phases : List (String × List String)
  critical_path : List String
  dependency_graph : Graph
deriving DecidableEq, Repr

/-- The snapshot `load_status` creates when no document exists, with
`created` set to the invocation timestamp. -/
def emptySnapshot (now : String) : Snapshot :=
  { version := "1.0", created := now, project := "", workstreams := [],
    tickets := [], phases := [], critical_path := [], dependency_graph := [] }

/-- A ticket stub as delivered by the external source-file parser
(identifier, summary, area, priority, dependency list; the parser always
sets `blocks` to `[]`). -/
structure Stub where
  id : String
  summary : String
  area : String
  priority : String
  blocked_by : List String
deriving DecidableEq, Repr

/-- The fresh record `cmd_create` stores for a stub. -/
def freshTicket (st : Stub) : Ticket :=
  { summary := st.summary, area := st.area, workstream := "",
    phase := 1, depth := 0, status := "pending", priority := st.priority,
    blocked_by := st.blocked_by, blocks := [],
    plan_status := "none", build_status := "none",
    pr_number := none, pr_status := none, retry_count := 0 }

/-- The graph `cmd_create` builds: one key per stub of the new batch,
mapped to its `blocked_by` list. -/
def batchGraph (stubs : List Stub) : Graph :=
  stubs.map (fun st => (st.id, st.blocked_by))

/-- The dependency graph induced by the *entire* tracked ticket map
(each tracked ticket mapped to its `blocked_by` list). -/
def ticketGraph (s : Snapshot) : Graph :=
  s.tickets.map (fun x => (x.1, x.2.blocked_by))

/-- One step of the depth/phase write-back loop. -/
def depthStep (tk : List (String × Ticket)) (pr : String × Nat) :
    List (String × Ticket) :=
  match lookupA tk pr.1 with
  | none => tk
  | some t => setA tk pr.1 { t with depth := pr.2, phase := pr.2 + 1 }

/-- The depth/phase write-back loop shared by `cmd_create` and
`cmd_depends` (`for tid, d in depths.items(): ...`). -/
def applyDepths (depths : List (String × Nat)) (tk : List (String × Ticket)) :
    List (String × Ticket) :=
  depths.foldl depthStep tk

/-- The batch-registration loop: store a fresh record for every stub
(`data["tickets"][t["id"]] = {...}`, overwriting any prior record with
the same identifier). -/
def registerStubs (stubs : List Stub) (tk : List (String × Ticket)) :
    List (String × Ticket) :=
  stubs.foldl (fun tk st => setA tk st.id (freshTicket st)) tk

/-- One step of the reverse-dependency pass: `if dep in data["tickets"]
and tid not in data["tickets"][dep]["blocks"]: append`. -/
def blocksStep (tid : String) (tk : List (String × Ticket)) (dep : String) :
    List (String × Ticket) :=
  match lookupA tk dep with
  | none => tk
  | some t =>
    if tid ∈ t.blocks then tk
    else setA tk dep { t with blocks := t.blocks ++ [tid] }

/-- The reverse-dependency pass: append `tid` to the `blocks` list of
every tracked dependency target, deduplicated. -/
def applyBlocks (graph : Graph) (tk : List (String × Ticket)) :
    List (String × Ticket) :=
  graph.foldl (fun tk pr => pr.2.foldl (blocksStep pr.1) tk) tk

/-- The snapshot `cmd_create` persists on success. -/
def createResult (s : Snapshot) (stubs : List Stub) (now : String) : Snapshot :=
  { s with
    created := now
    tickets := applyDepths (compute_depth (batchGraph stubs))
      (applyBlocks (batchGraph stubs) (registerStubs stubs s.tickets))
    dependency_graph := batchGraph stubs
    phases := compute_phases (batchGraph stubs) }

/-- Duplicate check of `cmd_create` (`ids.count(tid) > 1`, compared
within the batch only). -/
def hasDupIds (stubs : List Stub) : Bool :=
  (stubs.map Stub.id).any (fun i => decide (1 < (stubs.map Stub.id).count i))

/-- `cmd_create`: register a parsed batch.  Returns the exit code and
the persisted snapshot (paths that return before `save_status` leave the
persisted document unchanged). -/
def cmd_create (s : Snapshot) (stubs : List Stub) (now : String) : Nat × Snapshot :=
  if stubs.isEmpty then (2, s)
  else if hasDupIds stubs then (2, s)
  else
    match detect_cycle (batchGraph stubs) with
    | some _ => (2, s)
    | none => (0, createResult s stubs now)

/-- `PRIORITY_ORDER.get(priority, 2)`. -/
def priorityRank (p : String) : Nat :=
  if p = "critical" then 0 else if p = "high" then 1
  else if p = "medium" then 2 else if p = "low" then 3 else 2

/-- The JSON object `cmd_next` prints for the selected ticket. -/
structure NextOutput where
  ticket : String
  summary : String
  priority : String
  phase : Nat
  blocked_by : List String
deriving DecidableEq, Repr

/-- Eligibility test of `cmd_next`: status is exactly `pending` and
every `blocked_by` entry resolves to a tracked ticket whose status is
exactly `done` (`tickets.get(d, {}).get("status") == "done"`). -/
def isCandidate (tickets : List (String × Ticket)) (t : Ticket) : Bool :=
  t.status == "pending" &&
  t.blocked_by.all (fun d =>
    match lookupA tickets d with
    | some td => td.status == "done"
    | none => false)

/-- The candidate list of `cmd_next`, in tracked order. -/
def candidatesOf (s : Snapshot) : List (String × Ticket) :=
  s.tickets.filter (fun x => isCandidate s.tickets x.2)

/-- Strict comparison of the sort key
`(priority rank, phase, ticket identifier)`. -/
def nextKeyLt (a b : String × Ticket) : Bool :=
  if priorityRank a.2.priority < priorityRank b.2.priority then true
  else if priorityRank b.2.priority < priorityRank a.2.priority then false
  else if a.2.phase < b.2.phase then true
  else if b.2.phase < a.2.phase then false
  else strLt a.1 b.1

/-- `candidates.sort(key=...)` followed by `candidates[0]`: the first
candidate with minimal key (Python's sort is stable also). -/
def pickBest : List (String × Ticket) → Option (String × Ticket)
  | [] => none
  | c :: rest => some (rest.foldl (fun best x => if nextKeyLt x best then x else best) c)

/-- The JSON payload printed for a selected candidate. -/
def mkNextOutput (tid : String) (t : Ticket) : NextOutput :=
  { ticket := tid, summary := t.summary, priority := t.priority,
    phase := t.phase, blocked_by := t.blocked_by }

/-- `cmd_next`: pure query (it never calls `save_status`, so the
persisted document is unchanged); `none` corresponds to exit code 1,
`some` to exit code 0 with the printed selection. -/
def cmd_next (s : Snapshot) : Option NextOutput :=
  match pickBest (candidatesOf s) with
  | none => none
  | some (tid, t) => some (mkNextOutput tid t)

/-- Exit code of `next`: 1 signals "no work" (also covering an absent
document or empty ticket map, whose candidate set is empty), 0 success. -/
def cmd_next_exit (s : Snapshot) : Nat :=
  match cmd_next s with
  | none => 1
  | some _ => 0

/-- `cmd_depends`: returns the exit code, the final in-memory document
(including the in-memory rollback edits of the cycle path), and whether
`save_status` was called. -/
def cmd_depends (s : Snapshot) (ticket_id depends_on_id : String) :
    Nat × Snapshot × Bool :=
  match lookupA s.tickets ticket_id with
  | none => (2, s, false)
  | some tt =>
    match lookupA s.tickets depends_on_id with
    | none => (2, s, false)
    | some dt =>
      if ticket_id = depends_on_id then (2, s, false)
      else if depends_on_id ∈ tt.blocked_by then (0, s, false)
      else
        let blocked_by1 := tt.blocked_by ++ [depends_on_id]
        let tickets1 := setA s.tickets ticket_id { tt with blocked_by := blocked_by1 }
        let blocks1 := if ticket_id ∈ dt.blocks then dt.blocks
                       else dt.blocks ++ [ticket_id]
        let tickets2 := if ticket_id ∈ dt.blocks then tickets1
                        else setA tickets1 depends_on_id { dt with blocks := blocks1 }
        let graph1 := setA s.dependency_graph ticket_id blocked_by1
        match detect_cycle graph1 with
        | some _ =>
          let blocked_by2 := blocked_by1.erase depends_on_id
          let blocks2 := if ticket_id ∈ blocks1 then blocks1.erase ticket_id
                         else blocks1
          let tickets3 := setA tickets2 ticket_id { tt with blocked_by := blocked_by2 }
          let tickets4 := setA tickets3 depends_on_id { dt with blocks := blocks2 }
          let graph2 := setA graph1 ticket_id blocked_by2
          let s2 : Snapshot := { s with
            tickets := tickets4
            dependency_graph := graph2 }
          (2, s2, false)
        | none =>
          let tickets3 := applyDepths (compute_depth graph1) tickets2
          let s2 : Snapshot := { s with
            tickets := tickets3
            dependency_graph := graph1
            phases := compute_phases graph1 }
          (0, s2, true)

/-- Step equation of `cmd_depends` for the not-found and trivial
paths. -/
theorem cmd_depends_no_ticket (s : Snapshot) (a b : String)
    (h : lookupA s.tickets a = none) : cmd_depends s a b = (2, s, false) := by
  simp [cmd_depends, h]

/-- The persisted document after a `depends` invocation: unchanged
unless `save_status` ran. -/
def dependsPersisted (s : Snapshot) (ticket_id depends_on_id : String) : Snapshot :=
  if (cmd_depends s ticket_id depends_on_id).2.2 then
    (cmd_depends s ticket_id depends_on_id).2.1
  else s

def VALID_STATUSES : List String := ["pending", "in_progress", "done", "blocked"]

/-- `cmd_update`: unconditionally overwrite the status of a tracked
ticket with a vocabulary status and persist. -/
def cmd_update (s : Snapshot) (ticket_id status : String) : Nat × Snapshot :=
  if status ∉ VALID_STATUSES then (2, s)
  else
    match lookupA s.tickets ticket_id with
    | none => (2, s)
    | some t =>
      (0, { s with tickets := setA s.tickets ticket_id { t with status := status } })

def stubA : Stub := ⟨"A", "task a", "", "medium", ["B"]⟩

def stubB : Stub := ⟨"B", "task b", "", "medium", ["A"]⟩


theorem cmd_depends_exists (s : Snapshot) (a b : String) (tt dt : Ticket)
    (h1 : lookupA s.tickets a = some tt) (h2 : lookupA s.tickets b = some dt)
    (h3 : a ≠ b) (h4 : b ∈ tt.blocked_by) :
    cmd_depends s a b = (0, s, false) := by
  simp [cmd_depends, h1, h2, h3, h4]

theorem cmd_depends_cycle (s : Snapshot) (a b : String) (tt dt : Ticket)
    (cyc : List String)
    (h1 : lookupA s.tickets a = some tt) (h2 : lookupA s.tickets b = some dt)
    (h3 : a ≠ b) (h4 : b ∉ tt.blocked_by)
    (h5 : detect_cycle (setA s.dependency_graph a (tt.blocked_by ++ [b]))
      = some cyc) :
    (cmd_depends s a b).1 = 2 ∧ (cmd_depends s a b).2.2 = false := by
  simp [cmd_depends, h1, h2, h3, h4, h5]

def stubB0 : Stub := ⟨"B", "task b", "", "medium", []⟩

/-- A reachable snapshot tracking `A` (blocked by `B`) and `B`. -/
def sW : Snapshot := (cmd_create (emptySnapshot "t0") [stubA, stubB0] "t1").2

/-- C5: a `depends` call on two distinct tracked tickets whose new edge
would introduce a cycle exits with code 2 and leaves the persisted
snapshot — the dependent's `blocked_by`, the dependency's `blocks`, and
every other field — exactly as it was: the cycle path returns before
`save_status`, so nothing is persisted. -/
theorem C5_depends_cycle_rolls_back (s : Snapshot) (tid did : String)
    (tt dt : Ticket)
    (h1 : lookupA s.tickets tid = some tt) (h2 : lookupA s.tickets did = some dt)
    (h3 : tid ≠ did) (h4 : did ∉ tt.blocked_by)
    (h5 : ¬ Acyclic (setA s.dependency_graph tid (tt.blocked_by ++ [did]))) :
    (cmd_depends s tid did).1 = 2 ∧ dependsPersisted s tid did = s := by
  have hsome : detect_cycle (setA s.dependency_graph tid (tt.blocked_by ++ [did]))
      ≠ none := by
    intro hn
    exact h5 (detect_cycle_none_imp_acyclic _ hn)
  cases h6 : detect_cycle (setA s.dependency_graph tid (tt.blocked_by ++ [did])) with
  | none => exact absurd h6 hsome
  | some cyc =>
    rcases cmd_depends_cycle s tid did tt dt cyc h1 h2 h3 h4 h6 with ⟨hx, hs⟩
    refine ⟨hx, ?_⟩
    rw [dependsPersisted, hs]
    simp

/-- C5 witness: adding `B depends-on A` to a snapshot where `A` is
blocked by `B` fails with exit 2 and persists nothing. -/
theorem C5_witness :
    (cmd_depends sW "B" "A").1 = 2 ∧ dependsPersisted sW "B" "A" = sW :=
  C5_depends_cycle_rolls_back sW "B" "A"
    ⟨"task b", "", "", 1, 0, "pending", "medium", [], ["A"], "none", "none",
      none, none, 0⟩
    ⟨"task a", "", "", 2, 1, "pending", "medium", ["B"], [], "none", "none",
      none, none, 0⟩
    (by decide) (by decide) (by decide) (by decide)
    (fun hac => hac ⟨["A", "B", "A"], by decide⟩)

/-- C9: `depends` is idempotent on existing edges — when the dependency
is already in the tracked dependent's `blocked_by` list (and the call is
otherwise well-formed: both tracked, not a self-reference), it exits 0
without calling `save_status`, so the persisted snapshot (in particular
both list cardinalities) is unchanged. -/
theorem C9_depends_idempotent (s : Snapshot) (tid did : String) (tt dt : Ticket)
    (h1 : lookupA s.tickets tid = some tt) (h2 : lookupA s.tickets did = some dt)
    (h3 : tid ≠ did) (h4 : did ∈ tt.blocked_by) :
    cmd_depends s tid did = (0, s, false) ∧ dependsPersisted s tid did = s := by
  have h := cmd_depends_exists s tid did tt dt h1 h2 h3 h4
  refine ⟨h, ?_⟩
  rw [dependsPersisted, h]
  simp

/-- C9 witness: re-adding the existing edge `A blocked-by B` succeeds
and changes nothing. -/
theorem C9_witness :
    cmd_depends sW "A" "B" = (0, sW, false) ∧ dependsPersisted sW "A" "B" = sW :=
  C9_depends_idempotent sW "A" "B"
    ⟨"task a", "", "", 2, 1, "pending", "medium", ["B"], [], "none", "none",
      none, none, 0⟩
    ⟨"task b", "", "", 1, 0, "pending", "medium", [], ["A"], "none", "none",
      none, none, 0⟩
    (by decide) (by decide) (by decide) (by decide)

/-- C8: for a tracked ticket and any status of the vocabulary, `update`
exits 0, overwrites exactly the status field of that ticket (no
transition-adjacency check — the old status is arbitrary), and leaves
every other field of the ticket, every other ticket, and every other
snapshot field unchanged in the persisted document. -/
theorem C8_update_overwrites (s : Snapshot) (tid st : String) (t : Ticket)
    (h1 : lookupA s.tickets tid = some t) (h2 : st ∈ VALID_STATUSES) :
    (cmd_update s tid st).1 = 0 ∧
    lookupA (cmd_update s tid st).2.tickets tid = some { t with status := st } ∧
    (∀ other, other ≠ tid →
      lookupA (cmd_update s tid st).2.tickets other = lookupA s.tickets other) ∧
    (cmd_update s tid st).2.version = s.version ∧
    (cmd_update s tid st).2.created = s.created ∧
    (cmd_update s tid st).2.project = s.project ∧
    (cmd_update s tid st).2.workstreams = s.workstreams ∧
    (cmd_update s tid st).2.phases = s.phases ∧
    (cmd_update s tid st).2.critical_path = s.critical_path ∧
    (cmd_update s tid st).2.dependency_graph = s.dependency_graph := by
  have hre : cmd_update s tid st =
      (0, { s with tickets := setA s.tickets tid { t with status := st } }) := by
    simp [cmd_update, h2, h1]
  rw [hre]
  refine ⟨rfl, ?_, ?_, rfl, rfl, rfl, rfl, rfl, rfl, rfl⟩
  · exact lookupA_setA_self s.tickets tid { t with status := st }
  · intro other hother
    exact lookupA_setA_ne s.tickets tid other _ (fun he => hother he.symm)

/-- C8 witness: setting the pending ticket `A` of `sW` straight to
`done` succeeds and rewrites only that status field. -/
theorem C8_witness :
    (cmd_update sW "A" "done").1 = 0 ∧
    lookupA (cmd_update sW "A" "done").2.tickets "A" =
      some ⟨"task a", "", "", 2, 1, "done", "medium", ["B"], [], "none", "none",
        none, none, 0⟩ ∧
    lookupA (cmd_update sW "A" "done").2.tickets "B" = lookupA sW.tickets "B" := by
  have h := C8_update_overwrites sW "A" "done"
    ⟨"task a", "", "", 2, 1, "pending", "medium", ["B"], [], "none", "none",
      none, none, 0⟩
    (by decide) (by decide)
  exact ⟨h.1, h.2.1, h.2.2.1 "B" (by decide)⟩

/-- C10 (implicit): every successful `create` stores the invocation
time in `created`, clobbering the timestamp of any earlier creation, so
after two `create` commands the stored value is the second invocation's
time. -/
theorem C10_create_overwrites_created (s : Snapshot) (stubs : List Stub)
    (now : String) (h : (cmd_create s stubs now).1 = 0) :
    (cmd_create s stubs now).2.created = now := by
  unfold cmd_create at h ⊢
  by_cases h1 : stubs.isEmpty
  · rw [if_pos h1] at h
    simp at h
  · rw [if_neg h1] at h ⊢
    by_cases h2 : hasDupIds stubs
    · rw [if_pos h2] at h
      simp at h
    · rw [if_neg h2] at h ⊢
      cases h3 : detect_cycle (batchGraph stubs) with
      | some cyc =>
        rw [h3] at h
        simp at h
      | none =>
        rfl

/-- C10 witness: after `create` at `"t1"` followed by `create` at
`"t2"`, the persisted `created` field is `"t2"`. -/
theorem C10_witness :
    (cmd_create (cmd_create (emptySnapshot "t0") [stubB0] "t1").2 [stubA] "t2").2.created
      = "t2" :=
  C10_create_overwrites_created
    (cmd_create (emptySnapshot "t0") [stubB0] "t1").2 [stubA] "t2" (by decide)

/-- C6: `detect_cycle` returns `none` exactly when the graph restricted
to its key set is acyclic (so dependencies pointing outside the key set
never produce a false cycle or an error, and every component —
disconnected ones included — is examined); whenever it returns a path,
that path is a closed walk along recorded edges that begins and ends at
the re-entry node (`head? = getLast?`).  The embedded function is pure:
it only reads its argument. -/
theorem C6_detect_cycle_spec (g : Graph) :
    (detect_cycle g = none ↔ Acyclic g) ∧
    (∀ cyc, detect_cycle g = some cyc → IsCycleList g cyc) :=
  ⟨detect_cycle_none_iff_acyclic g, fun cyc h => detect_cycle_some_imp_cycle g cyc h⟩

/-- C6 witness: on the two-cycle `A ↔ B` the reported path
`A → B → A` is a genuine closed walk. -/
theorem C6_witness :
    IsCycleList [("A", ["B"]), ("B", ["A"])] ["A", "B", "A"] :=
  (C6_detect_cycle_spec [("A", ["B"]), ("B", ["A"])]).2 ["A", "B", "A"] (by decide)

/-- The three-node chain of the claim: `C` has no dependencies, `B`
depends on `C`, `A` depends on `B`. -/
def chainGraph : Graph := [("A", ["B"]), ("B", ["C"]), ("C", [])]

/-- A diamond (shared-ancestor) graph: `A` depends on `B` and `C`, both
of which depend on `D`. -/
def diamondGraph : Graph :=
  [("A", ["B", "C"]), ("B", ["D"]), ("C", ["D"]), ("D", [])]

/-- C7: on every acyclic mapping, `compute_depth` (total by
construction, including on diamond-shaped graphs) assigns every key a
depth satisfying the recurrence — 0 for a node with no in-key
dependency, otherwise 1 + the maximum over its in-key dependencies
(non-key dependencies excluded); `compute_phases` then groups each node
under the phase key `str(depth + 1)`, with each member list sorted
lexicographically and the phase keys in ascending numeric order; on the
chain `A → B → C` the depths are A=2, B=1, C=0 and the phases are
`{"1": ["C"], "2": ["B"], "3": ["A"]}`. -/
theorem C7_depth_phases_spec (g : Graph) (hac : Acyclic g) :
    (∀ n, containsKey g n = true →
       ∃ d, lookupA (compute_depth g) n = some d ∧
         d = (if inKeyDeps g n = [] then 0
              else ((inKeyDeps g n).map
                (fun x => (lookupA (compute_depth g) x).getD 0)).foldl max 0 + 1)) ∧
    (∀ ph l, (ph, l) ∈ compute_phases g →
       l ≠ [] ∧ List.Pairwise (fun a b => strLe a b = true) l ∧
       ∃ d : Nat, ph = toString (d + 1) ∧
         ∀ t ∈ l, lookupA (compute_depth g) t = some d) ∧
    (∀ n d, lookupA (compute_depth g) n = some d →
       ∃ l, (toString (d + 1), l) ∈ compute_phases g ∧ n ∈ l) ∧
    (∃ ds : List Nat, List.Pairwise (· < ·) ds ∧
       (compute_phases g).map Prod.fst = ds.map (fun d => toString (d + 1))) ∧
    (compute_depth chainGraph = [("C", 0), ("B", 1), ("A", 2)] ∧
     compute_phases chainGraph = [("1", ["C"]), ("2", ["B"]), ("3", ["A"])] ∧
     compute_depth diamondGraph = [("D", 0), ("B", 1), ("C", 1), ("A", 2)]) := by
  rcases compute_phases_spec g hac with ⟨p1, p2, p3⟩
  exact ⟨fun n hn => compute_depth_recurrence g hac n hn, p1, p2, p3,
    by decide, by decide, by decide⟩

/-- C7 witness: the theorem applied to the concrete chain (acyclicity
discharged through the verified checker). -/
theorem C7_witness :
    compute_depth chainGraph = [("C", 0), ("B", 1), ("A", 2)] ∧
    compute_phases chainGraph = [("1", ["C"]), ("2", ["B"]), ("3", ["A"])] := by
  have h := C7_depth_phases_spec chainGraph
    (detect_cycle_none_imp_acyclic chainGraph (by decide))
  exact ⟨h.2.2.2.2.1, h.2.2.2.2.2.1⟩

/-- C2 (code bug): starting from the empty snapshot, `create A
(blocked by B)` followed by `create B (blocked by A)` both exit 0, yet
the persisted tracked-ticket graph (every tracked ticket mapped to its
`blocked_by` list) then contains the cycle `A → B → A`: `cmd_create`
validates acyclicity only on the graph built from the new batch, so the
advertised invariant is violated by this two-command sequence. -/
theorem C2_cycle_reachable :
    (cmd_create (emptySnapshot "t0") [stubA] "t1").1 = 0 ∧
    (cmd_create (cmd_create (emptySnapshot "t0") [stubA] "t1").2 [stubB] "t2").1
      = 0 ∧
    IsCycleList (ticketGraph
      (cmd_create (cmd_create (emptySnapshot "t0") [stubA] "t1").2 [stubB] "t2").2)
      ["A", "B", "A"] ∧
    ¬ Acyclic (ticketGraph
      (cmd_create (cmd_create (emptySnapshot "t0") [stubA] "t1").2 [stubB] "t2").2) :=
  ⟨by decide, by decide, by decide,
   fun hac => hac ⟨["A", "B", "A"], by decide⟩⟩

/-- C1 counterexample: creating batch `[B (blocked by A)]` into a
snapshot already tracking `A (blocked by B)` succeeds (exit 0, claim
demands abort with exit 2 since the combined tracked graph has the
cycle `A → B → A`), and the persisted `dependency_graph` is rebuilt from
the new batch only (`{B: [A]}`), not from every tracked ticket's
`blocked_by`. -/
theorem C1_counterexample :
    (cmd_create (cmd_create (emptySnapshot "t0") [stubA] "t1").2 [stubB] "t2").1
      = 0 ∧
    (cmd_create (cmd_create (emptySnapshot "t0") [stubA] "t1").2
      [stubB] "t2").2.dependency_graph = [("B", ["A"])] ∧
    (cmd_create (cmd_create (emptySnapshot "t0") [stubA] "t1").2
      [stubB] "t2").2.dependency_graph ≠
      ticketGraph (cmd_create (cmd_create (emptySnapshot "t0") [stubA] "t1").2
        [stubB] "t2").2 ∧
    ¬ Acyclic (ticketGraph
      (cmd_create (cmd_create (emptySnapshot "t0") [stubA] "t1").2 [stubB] "t2").2) :=
  ⟨by decide, by decide, by decide,
   fun hac => hac ⟨["A", "B", "A"], by decide⟩⟩

theorem hasDupIds_eq_false_of_nodup (stubs : List Stub)
    (hnd : (stubs.map Stub.id).Nodup) : hasDupIds stubs = false := by
  rw [hasDupIds]
  rw [List.any_eq_false]
  intro i hi
  have := List.nodup_iff_count_le_one.mp hnd i
  simp
  omega

theorem nodup_of_hasDupIds_eq_false (stubs : List Stub)
    (h : hasDupIds stubs = false) : (stubs.map Stub.id).Nodup := by
  rw [List.nodup_iff_count_le_one]
  intro a
  rw [hasDupIds, List.any_eq_false] at h
  by_cases hm : a ∈ stubs.map Stub.id
  · have := h a hm
    simp at this
    omega
  · rw [List.count_eq_zero_of_not_mem hm]
    omega

/-- C1 (amended): `cmd_create` on a valid batch (non-empty, no
duplicate identifiers within the batch) builds its edge mapping from the
*new batch only*: it aborts with exit 2 and no persistence exactly when
that batch graph has a cycle, and on success it exits 0, overwrites
`dependency_graph` with the batch graph, overwrites `phases` with the
phase grouping of the batch graph, and stamps `created` with the
invocation time.  Pre-existing tickets play no part in the validation
and their edges are dropped from the persisted mapping. -/
theorem C1_create_batch_only (s : Snapshot) (stubs : List Stub) (now : String)
    (hne : stubs ≠ []) (hnd : (stubs.map Stub.id).Nodup) :
    (∀ cyc, detect_cycle (batchGraph stubs) = some cyc →
       cmd_create s stubs now = (2, s)) ∧
    (detect_cycle (batchGraph stubs) = none →
       (cmd_create s stubs now).1 = 0 ∧
       (cmd_create s stubs now).2.dependency_graph = batchGraph stubs ∧
       (cmd_create s stubs now).2.phases = compute_phases (batchGraph stubs) ∧
       (cmd_create s stubs now).2.created = now) := by
  have h1 : stubs.isEmpty = false := by
    cases stubs with
    | nil => exact absurd rfl hne
    | cons a t => rfl
  have h2 : hasDupIds stubs = false := hasDupIds_eq_false_of_nodup stubs hnd
  constructor
  · intro cyc hcyc
    simp [cmd_create, h1, h2, hcyc]
  · intro hnone
    have hre : cmd_create s stubs now = (0, createResult s stubs now) := by
      simp [cmd_create, h1, h2, hnone]
    rw [hre]
    exact ⟨rfl, rfl, rfl, rfl⟩

/-- C1 witness: a valid acyclic batch registers with exit 0 and the
batch-derived mapping. -/
theorem C1_witness :
    (cmd_create (emptySnapshot "t0") [stubA, stubB0] "t1").1 = 0 ∧
    (cmd_create (emptySnapshot "t0") [stubA, stubB0] "t1").2.dependency_graph
      = batchGraph [stubA, stubB0] := by
  have h := C1_create_batch_only (emptySnapshot "t0") [stubA, stubB0] "t1"
    (by decide) (by decide)
  rcases h.2 (by decide) with ⟨ha, hb, -, -⟩
  exact ⟨ha, hb⟩

section FieldPreservation

variable {β : Type} (f : Ticket → β)

theorem blocksStep_field (hf : ∀ t bl, f { t with blocks := bl } = f t)
    (tid : String) (tk : List (String × Ticket)) (dep i : String) :
    (lookupA (blocksStep tid tk dep) i).map f = (lookupA tk i).map f := by
  unfold blocksStep
  cases h : lookupA tk dep with
  | none => rfl
  | some t =>
    by_cases hb : tid ∈ t.blocks
    · simp [hb]
    · simp only [hb, if_false]
      by_cases hi : i = dep
      · rw [hi, lookupA_setA_self, h]
        simp [hf]
      · rw [lookupA_setA_ne _ dep i _ (fun he => hi he.symm)]

theorem blocksFold_field (hf : ∀ t bl, f { t with blocks := bl } = f t)
    (tid : String) :
    ∀ (deps : List String) (tk : List (String × Ticket)) (i : String),
      (lookupA (deps.foldl (blocksStep tid) tk) i).map f = (lookupA tk i).map f := by
  intro deps
  induction deps with
  | nil => intro tk i; rfl
  | cons d rest ih =>
    intro tk i
    simp only [List.foldl_cons]
    rw [ih (blocksStep tid tk d) i, blocksStep_field f hf tid tk d i]

theorem applyBlocks_field (hf : ∀ t bl, f { t with blocks := bl } = f t)
    (graph : Graph) :
    ∀ (tk : List (String × Ticket)) (i : String),
      (lookupA (applyBlocks graph tk) i).map f = (lookupA tk i).map f := by
  induction graph with
  | nil => intro tk i; rfl
  | cons pr rest ih =>
    intro tk i
    unfold applyBlocks at ih ⊢
    simp only [List.foldl_cons]
    rw [ih (pr.2.foldl (blocksStep pr.1) tk) i, blocksFold_field f hf pr.1 pr.2 tk i]

theorem depthStep_field (hf : ∀ t d p, f { t with depth := d, phase := p } = f t)
    (tk : List (String × Ticket)) (pr : String × Nat) (i : String) :
    (lookupA (depthStep tk pr) i).map f = (lookupA tk i).map f := by
  unfold depthStep
  cases h : lookupA tk pr.1 with
  | none => rfl
  | some t =>
    by_cases hi : i = pr.1
    · rw [hi, lookupA_setA_self, h]
      simp [hf]
    · rw [lookupA_setA_ne _ pr.1 i _ (fun he => hi he.symm)]

theorem applyDepths_field (hf : ∀ t d p, f { t with depth := d, phase := p } = f t)
    (depths : List (String × Nat)) :
    ∀ (tk : List (String × Ticket)) (i : String),
      (lookupA (applyDepths depths tk) i).map f = (lookupA tk i).map f := by
  induction depths with
  | nil => intro tk i; rfl
  | cons pr rest ih =>
    intro tk i
    unfold applyDepths at ih ⊢
    simp only [List.foldl_cons]
    rw [ih (depthStep tk pr) i, depthStep_field f hf tk pr i]

end FieldPreservation

theorem registerStubs_lookup_not_mem (stubs : List Stub)
    (tk : List (String × Ticket)) (i : String) (h : i ∉ stubs.map Stub.id) :
    lookupA (registerStubs stubs tk) i = lookupA tk i := by
  induction stubs generalizing tk with
  | nil => rfl
  | cons st rest ih =>
    have hne : i ≠ st.id := by
      intro he
      apply h
      rw [he]
      simp
    have hrest : i ∉ rest.map Stub.id := by
      intro hm
      exact h (by simp [hm])
    unfold registerStubs at ih ⊢
    simp only [List.foldl_cons]
    rw [ih (setA tk st.id (freshTicket st)) hrest]
    exact lookupA_setA_ne tk st.id i _ (fun he => hne he.symm)

theorem registerStubs_lookup_mem (stubs : List Stub)
    (hnd : (stubs.map Stub.id).Nodup) (st : Stub) (hst : st ∈ stubs) :
    ∀ tk, lookupA (registerStubs stubs tk) st.id = some (freshTicket st) := by
  induction stubs with
  | nil => simp at hst
  | cons st₀ rest ih =>
    intro tk
    rw [List.map_cons, List.nodup_cons] at hnd
    unfold registerStubs
    simp only [List.foldl_cons]
    rcases List.mem_cons.mp hst with hst | hst
    · subst hst
      have : lookupA (registerStubs rest (setA tk st.id (freshTicket st))) st.id
          = lookupA (setA tk st.id (freshTicket st)) st.id :=
        registerStubs_lookup_not_mem rest _ st.id hnd.1
      unfold registerStubs at this
      rw [this, lookupA_setA_self]
    · exact ih hnd.2 hst (setA tk st₀.id (freshTicket st₀))

def s3a : Snapshot := (cmd_create (emptySnapshot "t0") [stubB0] "t1").2

def s3b : Snapshot := (cmd_update s3a "B" "done").2

/-- C3 counterexample: ticket `B` is created, marked `done`, and then a
second `create` whose batch contains `B` again succeeds — and the
previously stored record is *not* left unchanged: its status is reset
from `done` to `pending` (the batch loop overwrites
`data["tickets"][id]` unconditionally). -/
theorem C3_counterexample :
    (cmd_update s3a "B" "done").1 = 0 ∧
    (lookupA s3b.tickets "B").map Ticket.status = some "done" ∧
    (cmd_create s3b [stubB0] "t3").1 = 0 ∧
    (lookupA (cmd_create s3b [stubB0] "t3").2.tickets "B").map Ticket.status
      = some "pending" := by
  refine ⟨by decide, by decide, by decide, by decide⟩

/-- C3 (amended): `cmd_create` overwrites the stored record of *every*
identifier in a successfully registered batch with a freshly initialized
record built from the stub — status `pending`, stub summary/area/
priority/`blocked_by`, default auxiliary fields — regardless of any
record previously tracked under that identifier; only the derived
`blocks`/`depth`/`phase` fields are then recomputed by the
reverse-dependency and depth passes. -/
theorem C3_create_overwrites (s : Snapshot) (stubs : List Stub) (now : String)
    (st : Stub) (hst : st ∈ stubs) (h0 : (cmd_create s stubs now).1 = 0) :
    ∃ t', lookupA (cmd_create s stubs now).2.tickets st.id = some t' ∧
      t'.status = "pending" ∧ t'.summary = st.summary ∧ t'.area = st.area ∧
      t'.priority = st.priority ∧ t'.blocked_by = st.blocked_by ∧
      t'.workstream = "" ∧ t'.plan_status = "none" ∧ t'.build_status = "none" ∧
      t'.pr_number = none ∧ t'.pr_status = none ∧ t'.retry_count = 0 := by
  unfold cmd_create at h0
  by_cases h1 : stubs.isEmpty
  · rw [if_pos h1] at h0
    simp at h0
  · rw [if_neg h1] at h0
    by_cases h2 : hasDupIds stubs
    · rw [if_pos h2] at h0
      simp at h0
    · rw [if_neg h2] at h0
      cases h3 : detect_cycle (batchGraph stubs) with
      | some cyc =>
        rw [h3] at h0
        simp at h0
      | none =>
        have hnd := nodup_of_hasDupIds_eq_false stubs (by
          rw [Bool.not_eq_true] at h2
          exact h2)
        have hre : cmd_create s stubs now = (0, createResult s stubs now) := by
          simp [cmd_create, h1, h2, h3]
        rw [hre]
        have hreg := registerStubs_lookup_mem stubs hnd st hst s.tickets
        have hmap : ∀ {β : Type} (f : Ticket → β),
            (∀ t bl, f { t with blocks := bl } = f t) →
            (∀ t d p, f { t with depth := d, phase := p } = f t) →
            (lookupA (createResult s stubs now).tickets st.id).map f
              = some (f (freshTicket st)) := by
          intro β f hfb hfd
          show (lookupA (applyDepths (compute_depth (batchGraph stubs))
            (applyBlocks (batchGraph stubs)
              (registerStubs stubs s.tickets))) st.id).map f = _
          rw [applyDepths_field f hfd, applyBlocks_field f hfb, hreg]
          rfl
        cases hF : lookupA (createResult s stubs now).tickets st.id with
        | none =>
          have hx := hmap Ticket.status (fun _ _ => rfl) (fun _ _ _ => rfl)
          rw [hF] at hx
          cases hx
        | some t' =>
          have hstat := hmap Ticket.status (fun _ _ => rfl) (fun _ _ _ => rfl)
          have hsumm := hmap Ticket.summary (fun _ _ => rfl) (fun _ _ _ => rfl)
          have harea := hmap Ticket.area (fun _ _ => rfl) (fun _ _ _ => rfl)
          have hprio := hmap Ticket.priority (fun _ _ => rfl) (fun _ _ _ => rfl)
          have hbb := hmap Ticket.blocked_by (fun _ _ => rfl) (fun _ _ _ => rfl)
          have hws := hmap Ticket.workstream (fun _ _ => rfl) (fun _ _ _ => rfl)
          have hplan := hmap Ticket.plan_status (fun _ _ => rfl) (fun _ _ _ => rfl)
          have hbuild := hmap Ticket.build_status (fun _ _ => rfl) (fun _ _ _ => rfl)
          have hprn := hmap Ticket.pr_number (fun _ _ => rfl) (fun _ _ _ => rfl)
          have hprs := hmap Ticket.pr_status (fun _ _ => rfl) (fun _ _ _ => rfl)
          have hrc := hmap Ticket.retry_count (fun _ _ => rfl) (fun _ _ _ => rfl)
          rw [hF] at hstat hsumm harea hprio hbb hws hplan hbuild hprn hprs hrc
          injection hstat with hstat
          injection hsumm with hsumm
          injection harea with harea
          injection hprio with hprio
          injection hbb with hbb
          injection hws with hws
          injection hplan with hplan
          injection hbuild with hbuild
          injection hprn with hprn
          injection hprs with hprs
          injection hrc with hrc
          exact ⟨t', rfl, hstat, hsumm, harea, hprio, hbb, hws, hplan, hbuild,
            hprn, hprs, hrc⟩

/-- C3 witness: re-registering `B` over the `done` record yields the
fresh default record. -/
theorem C3_witness :
    ∃ t', lookupA (cmd_create s3b [stubB0] "t3").2.tickets "B" = some t' ∧
      t'.status = "pending" ∧ t'.summary = "task b" ∧ t'.area = "" ∧
      t'.priority = "medium" ∧ t'.blocked_by = [] ∧
      t'.workstream = "" ∧ t'.plan_status = "none" ∧ t'.build_status = "none" ∧
      t'.pr_number = none ∧ t'.pr_status = none ∧ t'.retry_count = 0 :=
  C3_create_overwrites s3b [stubB0] "t3" stubB0 (by decide) (by decide)

theorem nextKeyLt_iff (a b : String × Ticket) :
    nextKeyLt a b = true ↔
      (priorityRank a.2.priority < priorityRank b.2.priority ∨
       (priorityRank a.2.priority = priorityRank b.2.priority ∧
        (a.2.phase < b.2.phase ∨
         (a.2.phase = b.2.phase ∧ strLt a.1 b.1 = true)))) := by
  unfold nextKeyLt
  by_cases h1 : priorityRank a.2.priority < priorityRank b.2.priority
  · simp [h1]
  · rw [if_neg h1]
    by_cases h2 : priorityRank b.2.priority < priorityRank a.2.priority
    · rw [if_pos h2]
      constructor
      · intro h
        cases h
      · intro h
        rcases h with h | ⟨he, -⟩
        · exact absurd h h1
        · omega
    · rw [if_neg h2]
      have he : priorityRank a.2.priority = priorityRank b.2.priority := by omega
      by_cases h3 : a.2.phase < b.2.phase
      · simp [h3, he]
      · rw [if_neg h3]
        by_cases h4 : b.2.phase < a.2.phase
        · rw [if_pos h4]
          constructor
          · intro h
            cases h
          · intro h
            rcases h with h | ⟨-, h | ⟨hp, -⟩⟩
            · exact absurd h h1
            · exact absurd h h3
            · omega
        · rw [if_neg h4]
          have hp : a.2.phase = b.2.phase := by omega
          simp [he, hp, h1, h3]

theorem nextKeyLt_irrefl (a : String × Ticket) : nextKeyLt a a = false := by
  cases h : nextKeyLt a a
  · rfl
  · rw [nextKeyLt_iff] at h
    rcases h with h | ⟨-, h | ⟨-, h⟩⟩
    · omega
    · omega
    · rw [strLt_irrefl] at h
      cases h

theorem nextKeyLt_trans (a b c : String × Ticket) (h₁ : nextKeyLt a b = true)
    (h₂ : nextKeyLt b c = true) : nextKeyLt a c = true := by
  rw [nextKeyLt_iff] at h₁ h₂ ⊢
  rcases h₁ with h₁ | ⟨he₁, hp₁⟩ <;> rcases h₂ with h₂ | ⟨he₂, hp₂⟩
  · left; omega
  · left; omega
  · left; omega
  · right
    refine ⟨by omega, ?_⟩
    rcases hp₁ with hp₁ | ⟨hq₁, hs₁⟩ <;> rcases hp₂ with hp₂ | ⟨hq₂, hs₂⟩
    · left; omega
    · left; omega
    · left; omega
    · right
      exact ⟨by omega, strLt_trans _ _ _ hs₁ hs₂⟩

theorem nextKeyLt_asymm (a b : String × Ticket) (h : nextKeyLt a b = true) :
    nextKeyLt b a = false := by
  cases hba : nextKeyLt b a
  · rfl
  · have := nextKeyLt_trans a b a h hba
    rw [nextKeyLt_irrefl] at this
    cases this

theorem nextKeyLt_key_eq (a b : String × Ticket)
    (h₁ : nextKeyLt a b = false) (h₂ : nextKeyLt b a = false) :
    priorityRank a.2.priority = priorityRank b.2.priority ∧
    a.2.phase = b.2.phase ∧ a.1 = b.1 := by
  have hr : priorityRank a.2.priority = priorityRank b.2.priority := by
    by_contra hne
    rcases Nat.lt_or_ge (priorityRank a.2.priority) (priorityRank b.2.priority)
      with h | h
    · have hx : nextKeyLt a b = true := (nextKeyLt_iff a b).mpr (Or.inl h)
      rw [hx] at h₁
      cases h₁
    · have hlt : priorityRank b.2.priority < priorityRank a.2.priority := by omega
      have hx : nextKeyLt b a = true := (nextKeyLt_iff b a).mpr (Or.inl hlt)
      rw [hx] at h₂
      cases h₂
  have hp : a.2.phase = b.2.phase := by
    by_contra hne
    rcases Nat.lt_or_ge a.2.phase b.2.phase with h | h
    · have hx : nextKeyLt a b = true :=
        (nextKeyLt_iff a b).mpr (Or.inr ⟨hr, Or.inl h⟩)
      rw [hx] at h₁
      cases h₁
    · have hlt : b.2.phase < a.2.phase := by omega
      have hx : nextKeyLt b a = true :=
        (nextKeyLt_iff b a).mpr (Or.inr ⟨hr.symm, Or.inl hlt⟩)
      rw [hx] at h₂
      cases h₂
  have hs : a.1 = b.1 := by
    apply strLt_eq_of_not_lt
    · cases hab : strLt a.1 b.1
      · rfl
      · have hx : nextKeyLt a b = true :=
          (nextKeyLt_iff a b).mpr (Or.inr ⟨hr, Or.inr ⟨hp, hab⟩⟩)
        rw [hx] at h₁
        cases h₁
    · cases hba : strLt b.1 a.1
      · rfl
      · have hx : nextKeyLt b a = true :=
          (nextKeyLt_iff b a).mpr (Or.inr ⟨hr.symm, Or.inr ⟨hp.symm, hba⟩⟩)
        rw [hx] at h₂
        cases h₂
  exact ⟨hr, hp, hs⟩

theorem pickBest_eq_none_iff (l : List (String × Ticket)) :
    pickBest l = none ↔ l = [] := by
  cases l <;> simp [pickBest]

theorem pickFold_spec (rest : List (String × Ticket)) :
    ∀ c : String × Ticket,
      (rest.foldl (fun best x => if nextKeyLt x best then x else best) c) ∈ c :: rest ∧
      ((rest.foldl (fun best x => if nextKeyLt x best then x else best) c) = c ∨
        nextKeyLt (rest.foldl (fun best x => if nextKeyLt x best then x else best) c) c
          = true) ∧
      ∀ y ∈ c :: rest,
        nextKeyLt y (rest.foldl (fun best x => if nextKeyLt x best then x else best) c)
          = false := by
  induction rest with
  | nil =>
    intro c
    refine ⟨by simp, Or.inl rfl, ?_⟩
    intro y hy
    simp at hy
    rw [hy]
    exact nextKeyLt_irrefl c
  | cons x rest ih =>
    intro c
    simp only [List.foldl_cons]
    by_cases hx : nextKeyLt x c = true
    · rw [if_pos hx]
      rcases ih x with ⟨hmem, hrel, hmin⟩
      refine ⟨?_, ?_, ?_⟩
      · rcases List.mem_cons.mp hmem with h | h
        · rw [h]; simp
        · simp [h]
      · right
        rcases hrel with h | h
        · rw [h]; exact hx
        · exact nextKeyLt_trans _ x c h hx
      · intro y hy
        rcases List.mem_cons.mp hy with hy | hy
        · rw [hy]
          cases hlt : nextKeyLt c (rest.foldl
            (fun best x => if nextKeyLt x best then x else best) x)
          · rfl
          · exfalso
            rcases hrel with h | h
            · rw [h] at hlt
              have hxx := nextKeyLt_trans x c x hx hlt
              rw [nextKeyLt_irrefl] at hxx
              cases hxx
            · have h1 := nextKeyLt_trans c _ x hlt h
              have hxx := nextKeyLt_trans x c x hx h1
              rw [nextKeyLt_irrefl] at hxx
              cases hxx
        · exact hmin y hy
    · rw [if_neg hx]
      rcases ih c with ⟨hmem, hrel, hmin⟩
      refine ⟨?_, hrel, ?_⟩
      · rcases List.mem_cons.mp hmem with h | h
        · rw [h]; simp
        · simp [h]
      · intro y hy
        rcases List.mem_cons.mp hy with hy | hy
        · rw [hy]
          exact hmin c (by simp)
        · rcases List.mem_cons.mp hy with hy | hy
          · rw [hy]
            cases hlt : nextKeyLt x (rest.foldl
              (fun best x => if nextKeyLt x best then x else best) c)
            · rfl
            · exfalso
              rw [Bool.not_eq_true] at hx
              rcases hrel with h | h
              · rw [h] at hlt
                rw [hlt] at hx
                cases hx
              · have hxc := nextKeyLt_trans x _ c hlt h
                rw [hxc] at hx
                cases hx
          · exact hmin y (by simp [hy])

theorem pickBest_cons (c : String × Ticket) (rest : List (String × Ticket)) :
    pickBest (c :: rest) =
      some (rest.foldl (fun best x => if nextKeyLt x best then x else best) c) := rfl

/-- C4: `next` is a pure query (the embedding returns only the
selection; the Python path never calls `save_status`).  Its candidate
set is exactly the tracked tickets whose status is `pending` and whose
every `blocked_by` entry resolves to a tracked ticket with status
`done` — so a ticket with an empty `blocked_by` is immediately eligible
and one with an untracked dependency is never selected.  It signals
no-work (exit 1) exactly when that set is empty, and otherwise returns
the unique minimum under the key (priority rank with critical=0 < high=1
< medium=2 < low=3, then ascending phase, then lexicographic
identifier). -/
theorem C4_next_spec (s : Snapshot) (hnd : (keysOf s.tickets).Nodup) :
    (cmd_next s = none ↔ candidatesOf s = []) ∧
    (cmd_next_exit s = 1 ↔ candidatesOf s = []) ∧
    (∀ tid t, (tid, t) ∈ candidatesOf s ↔
       ((tid, t) ∈ s.tickets ∧ t.status = "pending" ∧
        ∀ d ∈ t.blocked_by, ∃ td, lookupA s.tickets d = some td ∧
          td.status = "done")) ∧
    (priorityRank "critical" = 0 ∧ priorityRank "high" = 1 ∧
     priorityRank "medium" = 2 ∧ priorityRank "low" = 3) ∧
    (∀ o, cmd_next s = some o → ∃ tid t, o = mkNextOutput tid t ∧
       (tid, t) ∈ candidatesOf s ∧
       ∀ c ∈ candidatesOf s, c ≠ (tid, t) → nextKeyLt (tid, t) c = true) := by
  have hnone : cmd_next s = none ↔ candidatesOf s = [] := by
    rw [cmd_next]
    cases hpb : pickBest (candidatesOf s) with
    | none => simp [(pickBest_eq_none_iff _).mp hpb]
    | some b =>
      obtain ⟨tid, t⟩ := b
      constructor
      · intro h
        cases h
      · intro h
        rw [h] at hpb
        cases hpb
  have hknd : (keysOf (candidatesOf s)).Nodup := by
    have hsub : (candidatesOf s).Sublist s.tickets := List.filter_sublist _
    exact (hsub.map Prod.fst).nodup hnd
  refine ⟨hnone, ?_, ?_, ⟨rfl, rfl, rfl, rfl⟩, ?_⟩
  · rw [cmd_next_exit]
    cases hcn : cmd_next s with
    | none => simp [hnone.mp hcn]
    | some o =>
      constructor
      · intro h
        cases h
      · intro h
        have := hnone.mpr h
        rw [hcn] at this
        cases this
  · intro tid t
    rw [candidatesOf, List.mem_filter]
    constructor
    · rintro ⟨hmem, hcand⟩
      rw [isCandidate, Bool.and_eq_true] at hcand
      obtain ⟨hst, hall⟩ := hcand
      rw [beq_iff_eq] at hst
      refine ⟨hmem, hst, ?_⟩
      intro d hd
      rw [List.all_eq_true] at hall
      have hx := hall d hd
      cases hlk : lookupA s.tickets d with
      | none =>
        rw [hlk] at hx
        cases hx
      | some td =>
        rw [hlk] at hx
        rw [beq_iff_eq] at hx
        exact ⟨td, rfl, hx⟩
    · rintro ⟨hmem, hst, hdeps⟩
      refine ⟨hmem, ?_⟩
      rw [isCandidate, Bool.and_eq_true]
      refine ⟨by rw [beq_iff_eq]; exact hst, ?_⟩
      rw [List.all_eq_true]
      intro d hd
      rcases hdeps d hd with ⟨td, hlk, hdone⟩
      rw [hlk]
      rw [beq_iff_eq]
      exact hdone
  · intro o hno
    rw [cmd_next] at hno
    cases hpb : pickBest (candidatesOf s) with
    | none =>
      rw [hpb] at hno
      cases hno
    | some b =>
      obtain ⟨tid, t⟩ := b
      rw [hpb] at hno
      injection hno with hno
      refine ⟨tid, t, hno.symm, ?_, ?_⟩
      · cases hc : candidatesOf s with
        | nil =>
          rw [hc] at hpb
          cases hpb
        | cons c0 rest =>
          rw [hc, pickBest_cons] at hpb
          injection hpb with hpb
          rcases pickFold_spec rest c0 with ⟨hmem, -, -⟩
          rw [hpb] at hmem
          exact hmem
      · intro c hcmem hne
        cases hc : candidatesOf s with
        | nil =>
          rw [hc] at hcmem
          cases hcmem
        | cons c0 rest =>
          rw [hc, pickBest_cons] at hpb
          injection hpb with hpb
          rcases pickFold_spec rest c0 with ⟨hmemb, -, hmin⟩
          rw [hpb] at hmemb hmin
          rw [hc] at hcmem
          have h1 : nextKeyLt c (tid, t) = false := hmin c hcmem
          cases h2 : nextKeyLt (tid, t) c with
          | true => rfl
          | false =>
            exfalso
            rcases nextKeyLt_key_eq (tid, t) c h2 h1 with ⟨-, -, hid⟩
            obtain ⟨c1, c2⟩ := c
            simp at hid
            have e1 : lookupA (candidatesOf s) tid = some t :=
              lookupA_of_mem_nodup _ tid t hknd (by rw [hc]; exact hmemb)
            have e2 : lookupA (candidatesOf s) c1 = some c2 :=
              lookupA_of_mem_nodup _ c1 c2 hknd (by rw [hc]; exact hcmem)
            rw [← hid] at e2
            rw [e1] at e2
            injection e2 with e2
            exact hne (by rw [hid, e2])

/-- C4 witness: on the two-ticket snapshot `sW` (`A` blocked by the
not-yet-done `B`), the theorem's no-work equivalence holds concretely —
`next` selects `B`, so neither side of the equivalence obtains. -/
theorem C4_witness : cmd_next sW = none ↔ candidatesOf sW = [] :=
  (C4_next_spec sW (by decide)).1
